import Mathlib

/-!
Virtual memory manager: paging simulator and segment translation

A shallow embedding of the algorithmic core of `src/App.jsx`
(the React component `VirtualMemoryManager`): the handlers `resetSimulation`,
`processNextPage`, `selectVictim` and `findSegment`, together with the result shown by the
address-translation panel.  React state is a record, a handler is a function on that record
(every setter of one handler call is applied to the state of the render that created the
handler, which is what the functional updates `prev => prev + 1` compute when the handler runs
once per render).
-/

set_option exponentiation.threshold 2048

namespace VMM

/-! ## JavaScript values and array primitives -/

/-- The JavaScript values that occur in a frame slot or come out of an indexed read of the
reference sequence: `null` (empty slot), `undefined` (a read past the end, or a slot that an
out-of-range store left unfilled) and integer numbers (page ids, produced by `parseInt`). -/
inductive JSVal where
  | null
  | undefined
  | num (n : Int)
  deriving DecidableEq, Repr

/-- The JavaScript numbers with an integer or infinite value: the scan results compared by
`Math.min` / `Math.max` in `selectVictim`, and the results of the double additions and
subtractions of the address translation. -/
inductive JSNum where
  | negInf
  | fin (z : Int)
  | posInf
  deriving DecidableEq, Repr

/-- Numeric `<=` on `JSNum`. -/
def JSNum.le : JSNum → JSNum → Bool
  | .negInf, _ => true
  | _, .posInf => true
  | .fin a, .fin b => decide (a ≤ b)
  | .fin _, .negInf => false
  | .posInf, .negInf => false
  | .posInf, .fin _ => false

/-- The built-in `Math.min(...xs)`: `Infinity` for no arguments. -/
def mathMin : List JSNum → JSNum
  | [] => .posInf
  | x :: xs => if x.le (mathMin xs) then x else mathMin xs

/-- The built-in `Math.max(...xs)`: `-Infinity` for no arguments. -/
def mathMax : List JSNum → JSNum
  | [] => .negInf
  | x :: xs => if (mathMax xs).le x then x else mathMax xs

/-- The array method `xs.indexOf(v)`: the first index holding `v`; `none` stands for the result `-1`. -/
def jsIndexOf {α : Type} [DecidableEq α] (v : α) : List α → Option Nat
  | [] => none
  | x :: xs => if x = v then some 0 else (jsIndexOf v xs).map (· + 1)

/-- The array method `xs.includes(v)`. -/
def jsIncludes {α : Type} [DecidableEq α] (v : α) (xs : List α) : Bool :=
  decide (v ∈ xs)

/-- The read `pageSequence[i]`: the number at index `i`, `undefined` past the end. -/
def seqAt (pageSequence : List Int) (i : Nat) : JSVal :=
  match pageSequence[i]? with
  | some n => .num n
  | none => .undefined

/-- The store `arr[idx] = v` on a copy of the array.  `idx = none` stands for an index value
that is not an array index (`-1` from `indexOf`, `NaN` from `% 0`): the store then creates a property and
leaves the elements alone.  A store past the end grows the array, the skipped slots reading as
`undefined`. -/
def arrayStore (arr : List JSVal) (idx : Option Nat) (v : JSVal) : List JSVal :=
  match idx with
  | none => arr
  | some i =>
    if i < arr.length then arr.set i v
    else arr ++ List.replicate (i - arr.length) JSVal.undefined ++ [v]

/-! ## Paging simulator state -/

/-- The three values of the `algorithm` select box. -/
inductive Algorithm where
  | fifo
  | lru
  | optimal
  deriving DecidableEq, Repr

/-- One entry of `history`. -/
structure StepRecord where
  step : Nat
  page : JSVal
  frames : List JSVal
  fault : Bool
  hit : Bool
  deriving DecidableEq, Repr

/-- The paging part of the component state (the `useState` cells of lines 6-14). -/
structure Sim where
  algorithm : Algorithm
  pageFrames : Int
  pageSequence : List Int
  currentStep : Nat
  isPlaying : Bool
  frames : List JSVal
  pageFaults : Nat
  pageHits : Nat
  history : List StepRecord
  deriving DecidableEq, Repr

/-- The state of the first render (lines 6-14): FIFO, 3 frames, the sample sequence,
and an empty `frames` array until the mount effect calls `resetSimulation`. -/
def initialState : Sim :=
  { algorithm := .fifo, pageFrames := 3,
    pageSequence := [1, 2, 3, 4, 1, 2, 5, 1, 2, 3, 4, 5],
    currentStep := 0, isPlaying := false, frames := [],
    pageFaults := 0, pageHits := 0, history := [] }

/-- Lines 39-46, for a frame count that `Array(pageFrames)` accepts (see
`callResetSimulation` for the other counts): `Array(n).fill(null)` is `n` slots of `null`. -/
def resetSimulation (s : Sim) : Sim :=
  { s with
    frames := List.replicate s.pageFrames.toNat JSVal.null
    pageFaults := 0
    pageHits := 0
    currentStep := 0
    history := []
    isPlaying := false }

/-- The backward scan of lines 88-91, started at `i = bound - 1`:
the greatest `i < bound` with `pageSequence[i] === frame`, else `-1`. -/
def lastUsedOf (pageSequence : List Int) (frame : JSVal) : Nat → Int
  | 0 => -1
  | i + 1 => if seqAt pageSequence i = frame then (i : Int) else lastUsedOf pageSequence frame i

/-- The forward scan of lines 96-99 from index `i`, with `fuel` iterations left. -/
def scanForward (pageSequence : List Int) (frame : JSVal) : Nat → Nat → JSNum
  | 0, _ => .posInf
  | fuel + 1, i =>
    if seqAt pageSequence i = frame then .fin (i : Int)
    else scanForward pageSequence frame fuel (i + 1)

/-- The loop of lines 96-99: `i` runs from `currentStep + 1` while `i < pageSequence.length`. -/
def nextUseOf (pageSequence : List Int) (frame : JSVal) (currentStep : Nat) : JSNum :=
  scanForward pageSequence frame (pageSequence.length - (currentStep + 1)) (currentStep + 1)

/-- Lines 83-104.  The result is an array index, or `none` for a number that is not one
(`NaN` from `% 0`, `-1` from a failed `indexOf`).  The remainder `currentStep % pageFrames`
of a non-negative `currentStep` is taken by the magnitude of `pageFrames`.  The unused
parameter `newPage` is dropped; the final `return 0` is unreachable because `algorithm` is one
of the three option values. -/
def selectVictim (s : Sim) (currentFrames : List JSVal) : Option Nat :=
  match s.algorithm with
  | .fifo =>
    if s.pageFrames = 0 then none else some (s.currentStep % s.pageFrames.natAbs)
  | .lru =>
    let lastUsed := currentFrames.map
      (fun frame => JSNum.fin (lastUsedOf s.pageSequence frame s.currentStep))
    jsIndexOf (mathMin lastUsed) lastUsed
  | .optimal =>
    let nextUse := currentFrames.map
      (fun frame => nextUseOf s.pageSequence frame s.currentStep)
    jsIndexOf (mathMax nextUse) nextUse

/-- Lines 48-81. -/
def processNextPage (s : Sim) : Sim :=
  if s.currentStep ≥ s.pageSequence.length then s
  else
    let page := seqAt s.pageSequence s.currentStep
    if jsIncludes page s.frames then
      { s with
        pageHits := s.pageHits + 1
        history := s.history ++
          [{ step := s.currentStep, page := page, frames := s.frames,
             fault := false, hit := true }]
        currentStep := s.currentStep + 1 }
    else
      let newFrames :=
        if jsIncludes JSVal.null s.frames then
          arrayStore s.frames (jsIndexOf JSVal.null s.frames) page
        else
          arrayStore s.frames (selectVictim s s.frames) page
      { s with
        pageFaults := s.pageFaults + 1
        frames := newFrames
        history := s.history ++
          [{ step := s.currentStep, page := page, frames := newFrames,
             fault := true, hit := false }]
        currentStep := s.currentStep + 1 }

/-- The handler `processNextPage` invoked `k` times in a row, once per render. -/
def stepN : Nat → Sim → Sim
  | 0, s => s
  | k + 1, s => stepN k (processNextPage s)

/-- A full run: `resetSimulation`, then `processNextPage` once per reference
(the Play loop of lines 27-37 stops when `currentStep` reaches the sequence length). -/
def fullRun (s : Sim) : Sim :=
  stepN s.pageSequence.length (resetSimulation s)

/-- The state whose reset starts a run with the given policy, frame count and sequence. -/
def configure (algorithm : Algorithm) (pageFrames : Int) (pageSequence : List Int) : Sim :=
  { initialState with
    algorithm := algorithm, pageFrames := pageFrames, pageSequence := pageSequence }

/-! ## Segmentation -/

/-- The number of low-order bits that do not fit when the natural number `n` is kept to the
53 significant bits of a double; `fuel` bounds the number of halvings. -/
def droppedBits : Nat → Nat → Nat
  | 0, _ => 0
  | fuel + 1, n => if n < 2 ^ 53 then 0 else droppedBits fuel (n / 2) + 1

/-- The magnitude of the double nearest to the natural number `n`, before the overflow check:
the 53 leading bits `q` of `n`, rounded to nearest with ties to the even `q`, scaled back.
Naturals below `2^53` are kept exactly. -/
def roundMagnitude (n : Nat) : Nat :=
  let e := droppedBits n n
  let q := n / 2 ^ e
  let r := n % 2 ^ e
  if 2 * r > 2 ^ e ∨ (2 * r = 2 ^ e ∧ q % 2 = 1) then (q + 1) * 2 ^ e else q * 2 ^ e

/-- The JavaScript number produced by an addition or subtraction of two numbers whose exact
result is the integer `z`: IEEE-754 double precision, round to nearest, ties to even, and
`Infinity` / `-Infinity` once the rounded magnitude reaches `2^1024`. -/
def toDouble (z : Int) : JSNum :=
  if 2 ^ 1024 ≤ roundMagnitude z.natAbs then (if z < 0 then .negInf else .posInf)
  else if z < 0 then .fin (-(roundMagnitude z.natAbs : Int))
  else .fin (roundMagnitude z.natAbs : Int)

/-- Numeric `<` on `JSNum` (none of the numbers compared here is `NaN`). -/
def JSNum.lt (a b : JSNum) : Bool :=
  !(b.le a)

/-- An entry of `segments` (lines 15-20); `color` is presentation only.  `base` and `limit`
are JavaScript numbers with integer values, as in the table of the component. -/
structure Segment where
  id : Nat
  name : String
  base : Int
  limit : Int
  deriving DecidableEq, Repr

/-- Lines 111-113: `segments.find(...)`, `none` for `undefined`.  The comparison
`address >= seg.base` is exact; `seg.base + seg.limit` is a double addition. -/
def findSegment (segments : List Segment) (address : Int) : Option Segment :=
  segments.find? (fun seg =>
    decide (address ≥ seg.base) && (JSNum.fin address).lt (toDouble (seg.base + seg.limit)))

/-- What the address-translation panel shows (lines 336-353). -/
inductive TranslationResult where
  | validAccess (segment : Segment) (physicalAddress : Int) (offset : JSNum)
  | segmentationFault (address : Int)
  deriving DecidableEq, Repr

/-- Lines 336-353: look the address up and build the displayed result; the offset
`accessAddress - seg.base` is a double subtraction. -/
def translate (segments : List Segment) (accessAddress : Int) : TranslationResult :=
  match findSegment segments accessAddress with
  | some seg => .validAccess seg accessAddress (toDouble (accessAddress - seg.base))
  | none => .segmentationFault accessAddress

/-- The safe integers of JavaScript (`Number.isSafeInteger`): magnitude below `2^53`.  On
them double arithmetic is integer arithmetic. -/
def SafeInteger (z : Int) : Prop :=
  -(2 ^ 53) < z ∧ z < 2 ^ 53

instance (z : Int) : Decidable (SafeInteger z) := by
  unfold SafeInteger
  infer_instance

/-- A segment table whose bases, limits and ends `base + limit` are safe integers. -/
def SafeTable (segments : List Segment) : Prop :=
  ∀ s ∈ segments, SafeInteger s.base ∧ SafeInteger s.limit ∧ SafeInteger (s.base + s.limit)

instance (segments : List Segment) : Decidable (SafeTable segments) := by
  unfold SafeTable
  infer_instance

/-- The one-segment table of the boundary scenario: base 1000, limit 2000. -/
def dataTable : List Segment :=
  [⟨1, "Data", 1000, 2000⟩]

/-- A one-segment table at the edge of the safe integers: base `2^53`, limit 1. -/
def edgeTable : List Segment :=
  [⟨0, "Edge", 2 ^ 53, 1⟩]

/-! ## Handler completions -/

/-- How a handler call ends.  A JavaScript call either returns or throws.  The bodies of
`resetSimulation` and `processNextPage` contain no `throw` statement; the one built-in call
in them that throws on a value of the state is the constructor call `Array(pageFrames)` of
line 40. -/
inductive Completion where
  | returned (s : Sim)
  | threw (error : String)
  deriving DecidableEq, Repr

/-- The lengths the constructor call `Array(n)` accepts: `0 <= n < 2^32`.  For every other
integer it throws a `RangeError` (invalid array length). -/
def validArrayLength (n : Int) : Bool :=
  decide (0 ≤ n) && decide (n < 2 ^ 32)

/-- The state seen by the render that follows a handler call made in state `s`: the updated
state if the handler returned; `s` itself if it threw, because the only throwing expression,
`Array(pageFrames)`, is evaluated before the first setter is called. -/
def stateAfter (s : Sim) : Completion → Sim
  | .returned t => t
  | .threw _ => s

/-- Calling `processNextPage` (the Step button, or a tick of the Play interval). -/
def callProcessNextPage (s : Sim) : Completion :=
  .returned (processNextPage s)

/-- Calling `resetSimulation` (the Reset button, or the effect of lines 23-25): line 40
first evaluates `Array(pageFrames)`, which throws a `RangeError` for a frame count that is
not a valid array length; otherwise the six setters run and the call returns. -/
def callResetSimulation (s : Sim) : Completion :=
  if validArrayLength s.pageFrames then .returned (resetSimulation s)
  else .threw "RangeError"

/-- The sample configuration of lines 6-8, run to the end and left exhausted. -/
def exhaustedSample : Sim :=
  fullRun initialState

/-- A finished two-reference run whose sequence box was then emptied (the text input of
lines 182-190 calls `setPageSequence` without resetting). -/
def clearedAfterRun : Sim :=
  { fullRun (configure .fifo 3 [1, 2]) with pageSequence := [] }

/-! ## Specification vocabulary -/

/-- The last-used index of a page, in the words of the specification: the greatest `i` in
`[0, cursor - 1]` with `sequence[i]` equal to the page, or `-1` when the page does not occur
before the cursor. -/
def IsLastUsedIndex (pageSequence : List Int) (cursor : Nat) (page : Int) (r : Int) : Prop :=
  (r = -1 ∧ ∀ i, i < cursor → pageSequence[i]? ≠ some page) ∨
  (∃ i, i < cursor ∧ (r = (i : Int) ∧ pageSequence[i]? = some page ∧
      ∀ j, j < cursor → i < j → pageSequence[j]? ≠ some page))

instance (pageSequence : List Int) (cursor : Nat) (page : Int) (r : Int) :
    Decidable (IsLastUsedIndex pageSequence cursor page r) := by
  unfold IsLastUsedIndex
  infer_instance

/-- The next-use index of a page, in the words of the specification: the least `i` in
`[cursor + 1, length - 1]` with `sequence[i]` equal to the page, or `+infinity` (the top
element) when the page never occurs again. -/
def IsNextUseIndex (pageSequence : List Int) (cursor : Nat) (page : Int) (r : WithTop Nat) :
    Prop :=
  (r = ⊤ ∧ ∀ i, i < pageSequence.length → cursor < i → pageSequence[i]? ≠ some page) ∨
  (∃ i, i < pageSequence.length ∧ (r = ((i : Nat) : WithTop Nat) ∧ cursor < i ∧
      pageSequence[i]? = some page ∧ ∀ j, j < i → cursor < j → pageSequence[j]? ≠ some page))

/-- The JavaScript number standing for a next-use index of the specification. -/
def nextUseToJS : WithTop Nat → JSNum
  | none => .posInf
  | some i => .fin (i : Int)

/-- The sample state used to illustrate victim selection: 3 frames holding pages 4, 1, 2,
cursor on the second reference to page 3 of the sample sequence. -/
def victimSample (algorithm : Algorithm) : Sim :=
  { initialState with
    algorithm := algorithm, currentStep := 9, frames := [.num 4, .num 1, .num 2] }

/-- A simulator state in the sense of the data model: the frame table has exactly
`pageFrames` slots, and there is at least one.  The reset run by the mount effect (lines
23-25) establishes it before any step can be taken, and `processNextPage` keeps it. -/
def WellFormed (s : Sim) : Prop :=
  (s.frames.length : Int) = s.pageFrames ∧ 1 ≤ s.pageFrames

instance (s : Sim) : Decidable (WellFormed s) := by
  unfold WellFormed
  infer_instance

/-- No page id sits in two slots of the frame table. -/
def NoDuplicatePage (frames : List JSVal) : Prop :=
  ∀ (i j : Nat) (p : Int),
    frames[i]? = some (JSVal.num p) → frames[j]? = some (JSVal.num p) → i = j

/-- Value `x` is referenced at some index of the window `[c, t)` of the sequence. -/
def refd (pageSequence : List Int) (c t : Nat) (x : JSVal) : Prop :=
  ∃ i, i < t ∧ (c ≤ i ∧ i < pageSequence.length ∧ seqAt pageSequence i = x)

instance (pageSequence : List Int) (c t : Nat) (x : JSVal) :
    Decidable (refd pageSequence c t x) := by
  unfold refd
  infer_instance

/-- The number of slots of a frame table whose content is referenced in the window
`[c, t)`. -/
def refdCount (pageSequence : List Int) (c t : Nat) (frames : List JSVal) : Nat :=
  frames.countP (fun x => decide (refd pageSequence c t x))

/-- At cursor `c`, the table `F` with `fO` faults so far dominates the table `G` with `fA`
faults so far: for every horizon `t`, `G` has at most `fA - fO` more slots than `F` whose
page is referenced again before `t`. -/
def Dominates (pageSequence : List Int) (c : Nat) (F G : List JSVal) (fO fA : Nat) : Prop :=
  ∀ t, refdCount pageSequence c t G + fO ≤ refdCount pageSequence c t F + fA

/-! ## Theorems -/

/-! ### Segment translation -/

theorem droppedBits_of_lt (n : Nat) (h : n < 2 ^ 53) : droppedBits n n = 0 := by
  cases n with
  | zero => rfl
  | succ k => simp only [droppedBits, h, if_true]

theorem roundMagnitude_of_lt (n : Nat) (h : n < 2 ^ 53) : roundMagnitude n = n := by
  simp only [roundMagnitude, droppedBits_of_lt n h, Nat.pow_zero, Nat.mod_one, Nat.div_one,
    Nat.mul_zero, Nat.mul_one]
  have h1 : ¬ (0 > 1 ∨ (0 = 1 ∧ n % 2 = 1)) := by omega
  rw [if_neg h1]

/-- On a safe integer the double result is the integer itself. -/
theorem toDouble_of_safe (z : Int) (h : SafeInteger z) : toDouble z = .fin z := by
  have hn : z.natAbs < 2 ^ 53 := by
    have h1 := h.1
    have h2 := h.2
    omega
  have hbig : ¬ (2 ^ 1024 ≤ z.natAbs) := by
    have : (2 : Nat) ^ 53 ≤ 2 ^ 1024 := Nat.pow_le_pow_right (by decide) (by decide)
    omega
  unfold toDouble
  rw [roundMagnitude_of_lt _ hn]
  simp only [hbig, if_false]
  split_ifs with hneg
  · congr 1
    omega
  · congr 1
    omega

/-- On safe integers the test of line 112 is the half-open range test. -/
theorem segmentTest_iff (seg : Segment) (a : Int)
    (hs : SafeInteger (seg.base + seg.limit)) :
    (decide (a ≥ seg.base) && (JSNum.fin a).lt (toDouble (seg.base + seg.limit))) = true ↔
      (seg.base ≤ a ∧ a < seg.base + seg.limit) := by
  rw [toDouble_of_safe _ hs]
  simp [JSNum.lt, JSNum.le]

theorem find_some_first (p : Segment → Bool) (l : List Segment) (x : Segment)
    (h : l.find? p = some x) :
    ∃ i, ∃ hi : i < l.length, l[i] = x ∧ p x = true ∧
      ∀ j, ∀ hj : j < l.length, j < i → p l[j] = false := by
  induction l with
  | nil => simp at h
  | cons y ys ih =>
    cases hy : p y
    · simp only [List.find?, hy] at h
      obtain ⟨i, hi, h1, h2, h3⟩ := ih h
      refine ⟨i + 1, by simpa using hi, by simpa using h1, h2, ?_⟩
      intro j hj hji
      cases j with
      | zero => simpa using hy
      | succ j =>
        have := h3 j (by simpa using hj) (by omega)
        simpa using this
    · simp only [List.find?, hy, Option.some.injEq] at h
      subst h
      exact ⟨0, by simp, rfl, hy, fun j _ hj => absurd hj (Nat.not_lt_zero j)⟩

theorem findSegment_none_iff (segments : List Segment) (a : Int) (ht : SafeTable segments) :
    findSegment segments a = none ↔
      ∀ s ∈ segments, ¬ (s.base ≤ a ∧ a < s.base + s.limit) := by
  unfold findSegment
  rw [List.find?_eq_none]
  constructor
  · intro h s hs hrange
    exact h s hs ((segmentTest_iff s a (ht s hs).2.2).2 hrange)
  · intro h s hs htest
    exact h s hs ((segmentTest_iff s a (ht s hs).2.2).1 htest)

theorem findSegment_some_first (segments : List Segment) (a : Int) (seg : Segment)
    (ht : SafeTable segments) (h : findSegment segments a = some seg) :
    ∃ i, ∃ hi : i < segments.length, segments[i] = seg ∧
      seg.base ≤ a ∧ a < seg.base + seg.limit ∧
      ∀ j, ∀ hj : j < segments.length, j < i →
        ¬ (segments[j].base ≤ a ∧ a < segments[j].base + segments[j].limit) := by
  obtain ⟨i, hi, h1, h2, h3⟩ := find_some_first _ segments seg h
  have hmem : seg ∈ segments := h1 ▸ List.getElem_mem _
  have hrange := (segmentTest_iff seg a (ht seg hmem).2.2).1 h2
  refine ⟨i, hi, h1, hrange.1, hrange.2, ?_⟩
  intro j hj hji hr
  have hmemj : segments[j] ∈ segments := List.getElem_mem _
  have := (segmentTest_iff segments[j] a (ht _ hmemj).2.2).2 hr
  rw [h3 j hj hji] at this
  exact Bool.false_ne_true this

/-- C6 (within the safe integers): for every segment table whose bases, limits and ends
`base + limit` are safe integers and every safe-integer address `a`, translation succeeds
exactly when some segment of the table has `base <= a < base + limit`; on success the matched
segment is the first such segment in table order, the physical address is `a` and the offset
is `a - base`; otherwise the result is the segmentation fault for `a`.  With the single
segment (base 1000, limit 2000): 1000 gives offset 0, 2999 gives offset 1999, 3000 faults. -/
theorem translate_first_match (segments : List Segment) (a : Int)
    (ht : SafeTable segments) (_ha : SafeInteger a) :
    ((∃ seg phys off, translate segments a = .validAccess seg phys off) ↔
        ∃ s ∈ segments, s.base ≤ a ∧ a < s.base + s.limit) ∧
    (∀ seg phys off, translate segments a = .validAccess seg phys off →
        phys = a ∧ off = .fin (a - seg.base) ∧
        ∃ i, ∃ hi : i < segments.length, segments[i] = seg ∧
          seg.base ≤ a ∧ a < seg.base + seg.limit ∧
          ∀ j, ∀ hj : j < segments.length, j < i →
            ¬ (segments[j].base ≤ a ∧ a < segments[j].base + segments[j].limit)) ∧
    ((¬ ∃ s ∈ segments, s.base ≤ a ∧ a < s.base + s.limit) →
        translate segments a = .segmentationFault a) ∧
    translate dataTable 1000 = .validAccess ⟨1, "Data", 1000, 2000⟩ 1000 (.fin 0) ∧
    translate dataTable 2999 = .validAccess ⟨1, "Data", 1000, 2000⟩ 2999 (.fin 1999) ∧
    translate dataTable 3000 = .segmentationFault 3000 := by
  have hnone := findSegment_none_iff segments a ht
  refine ⟨?_, ?_, ?_, by decide, by decide, by decide⟩
  · unfold translate
    cases hf : findSegment segments a with
    | none =>
      have := hnone.1 hf
      constructor
      · rintro ⟨seg, phys, off, h⟩
        simp at h
      · rintro ⟨s, hs, hb⟩
        exact absurd hb (this s hs)
    | some seg =>
      obtain ⟨i, hi, h1, h2, h3, _⟩ := findSegment_some_first segments a seg ht hf
      refine ⟨fun _ => ⟨seg, ?_, h2, h3⟩, fun _ => ⟨seg, a, _, rfl⟩⟩
      rw [← h1]
      exact List.getElem_mem _
  · intro seg phys off h
    unfold translate at h
    cases hf : findSegment segments a with
    | none => rw [hf] at h; simp at h
    | some seg2 =>
      rw [hf] at h
      simp only [TranslationResult.validAccess.injEq] at h
      obtain ⟨rfl, rfl, rfl⟩ := h
      have hfirst := findSegment_some_first segments a seg2 ht hf
      obtain ⟨i, hi, h1, h2, h3, _⟩ := hfirst
      have hmem : seg2 ∈ segments := h1 ▸ List.getElem_mem _
      have hsafe : SafeInteger (a - seg2.base) := by
        have hl := (ht seg2 hmem).2.1
        unfold SafeInteger at hl ⊢
        constructor <;> omega
      exact ⟨rfl, toDouble_of_safe _ hsafe, findSegment_some_first segments a seg2 ht hf⟩
  · intro h
    have : findSegment segments a = none := hnone.2 (fun s hs hb => h ⟨s, hs, hb⟩)
    simp [translate, this]

theorem translate_first_match_witness :
    SafeTable dataTable ∧ SafeInteger 2999 ∧
    translate dataTable 2999 = .validAccess ⟨1, "Data", 1000, 2000⟩ 2999 (.fin 1999) ∧
    ((∃ seg phys off, translate dataTable 2999 = .validAccess seg phys off) ↔
        ∃ s ∈ dataTable, s.base ≤ 2999 ∧ (2999 : Int) < s.base + s.limit) :=
  ⟨by decide, by decide, by decide,
    (translate_first_match dataTable 2999 (by decide) (by decide)).1⟩

/-- C6 as stated fails beyond the safe integers: the segment with base `2^53` and limit 1
contains the address `2^53` (`base <= a < base + limit`), all three being JavaScript numbers,
yet the sum `base + limit` rounds to `2^53` and the translation is a segmentation fault. -/
theorem translate_faults_at_unsafe_end :
    (∃ s ∈ edgeTable, s.base ≤ 2 ^ 53 ∧ (2 ^ 53 : Int) < s.base + s.limit) ∧
    toDouble (2 ^ 53) = .fin (2 ^ 53) ∧ toDouble 1 = .fin 1 ∧
    toDouble (2 ^ 53 + 1) = .fin (2 ^ 53) ∧
    translate edgeTable (2 ^ 53) = .segmentationFault (2 ^ 53) := by
  decide

/-! ### Exhausted step and reset -/

/-- C9 (as the code behaves): when `currentStep >= pageSequence.length`, the call of
`processNextPage` returns normally, without raising any error, and the whole state (frame
table, hit count, fault count, cursor, history) is unchanged. -/
theorem processNextPage_exhausted_noop (s : Sim)
    (h : s.currentStep ≥ s.pageSequence.length) :
    callProcessNextPage s = .returned s ∧ processNextPage s = s := by
  have : processNextPage s = s := by simp [processNextPage, h]
  exact ⟨by simp [callProcessNextPage, this], this⟩

theorem processNextPage_exhausted_noop_witness :
    exhaustedSample.currentStep ≥ exhaustedSample.pageSequence.length ∧
    callProcessNextPage exhaustedSample = .returned exhaustedSample ∧
    processNextPage exhaustedSample = exhaustedSample :=
  ⟨by decide, processNextPage_exhausted_noop exhaustedSample (by decide)⟩

/-- C9 as stated fails: on the exhausted sample run the call does not fail with
`SequenceExhausted`, it returns. -/
theorem processNextPage_exhausted_no_error :
    exhaustedSample.currentStep ≥ exhaustedSample.pageSequence.length ∧
    callProcessNextPage exhaustedSample = .returned exhaustedSample ∧
    callProcessNextPage exhaustedSample ≠ .threw "SequenceExhausted" := by
  decide

/-- C10 (as the code behaves): for every state, `resetSimulation` never fails with
`InvalidConfiguration`.  When the frame count is a valid array length (`0 <= pageFrames <
2^32`, so also for `pageFrames = 0`), whatever the reference sequence (also the empty one),
the call returns normally and sets the frame table to `pageFrames` empty slots, both counters
to 0, the cursor to 0, the history to empty and stops auto-play, keeping the configuration.
For every other frame count (negative, or `>= 2^32`) the call fails with the `RangeError` of
`Array(pageFrames)` and the state is left unchanged. -/
theorem resetSimulation_outcome (s : Sim) :
    callResetSimulation s ≠ .threw "InvalidConfiguration" ∧
    ((0 ≤ s.pageFrames ∧ s.pageFrames < 2 ^ 32) →
      callResetSimulation s = .returned (resetSimulation s) ∧
      stateAfter s (callResetSimulation s) = resetSimulation s ∧
      (resetSimulation s).frames = List.replicate s.pageFrames.toNat JSVal.null ∧
      ((resetSimulation s).frames.length : Int) = s.pageFrames ∧
      (resetSimulation s).pageFaults = 0 ∧
      (resetSimulation s).pageHits = 0 ∧
      (resetSimulation s).currentStep = 0 ∧
      (resetSimulation s).history = [] ∧
      (resetSimulation s).isPlaying = false ∧
      (resetSimulation s).algorithm = s.algorithm ∧
      (resetSimulation s).pageFrames = s.pageFrames ∧
      (resetSimulation s).pageSequence = s.pageSequence) ∧
    (¬ (0 ≤ s.pageFrames ∧ s.pageFrames < 2 ^ 32) →
      callResetSimulation s = .threw "RangeError" ∧
      stateAfter s (callResetSimulation s) = s) := by
  refine ⟨?_, ?_, ?_⟩
  · unfold callResetSimulation
    split_ifs <;> simp
  · intro h
    have hv : validArrayLength s.pageFrames = true := by
      simp only [validArrayLength, Bool.and_eq_true, decide_eq_true_eq]
      exact h
    have hc : callResetSimulation s = .returned (resetSimulation s) := by
      simp [callResetSimulation, hv]
    refine ⟨hc, by rw [hc]; rfl, rfl, ?_, rfl, rfl, rfl, rfl, rfl, rfl, rfl, rfl⟩
    show ((List.replicate s.pageFrames.toNat JSVal.null).length : Int) = s.pageFrames
    rw [List.length_replicate]
    omega
  · intro h
    have hv : validArrayLength s.pageFrames = false := by
      simp only [validArrayLength, Bool.and_eq_false_iff, decide_eq_false_iff_not]
      by_cases h0 : 0 ≤ s.pageFrames
      · exact Or.inr (fun h2 => h ⟨h0, h2⟩)
      · exact Or.inl h0
    have hc : callResetSimulation s = .threw "RangeError" := by
      simp [callResetSimulation, hv]
    exact ⟨hc, by rw [hc]; rfl⟩

/-- C10 as stated fails.  With an empty sequence (3 frames), and with frame count 0, the reset
after a finished run does not fail with `InvalidConfiguration`: it returns and wipes the prior
run (two faults, cursor 2, two history entries).  With frame count `2^32` and the non-empty
sample sequence the reset does not reset: it fails with a `RangeError`; the failure for a
negative frame count is that `RangeError` too. -/
theorem resetSimulation_invalid_config_still_resets :
    clearedAfterRun.pageSequence = [] ∧
    clearedAfterRun.pageFaults = 2 ∧ clearedAfterRun.currentStep = 2 ∧
    clearedAfterRun.history.length = 2 ∧
    callResetSimulation clearedAfterRun ≠ .threw "InvalidConfiguration" ∧
    (∃ t, callResetSimulation clearedAfterRun = .returned t ∧
      t.pageFaults = 0 ∧ t.currentStep = 0 ∧ t.history = [] ∧
      t.frames ≠ clearedAfterRun.frames) ∧
    (∃ t, callResetSimulation { exhaustedSample with pageFrames := 0 } = .returned t ∧
      t.pageFaults = 0 ∧ t.currentStep = 0 ∧ t.history = [] ∧ t.frames = []) ∧
    ({ exhaustedSample with pageFrames := 2 ^ 32 } : Sim).pageSequence ≠ [] ∧
    callResetSimulation { exhaustedSample with pageFrames := 2 ^ 32 } = .threw "RangeError" ∧
    callResetSimulation { exhaustedSample with pageFrames := -1 } = .threw "RangeError" := by
  refine ⟨by decide, by decide, by decide, by decide, by decide, ?_, ?_, by decide, by decide,
    by decide⟩
  · exact ⟨resetSimulation clearedAfterRun, by decide, by decide, by decide, by decide,
      by decide⟩
  · exact ⟨resetSimulation { exhaustedSample with pageFrames := 0 }, by decide,
      by decide, by decide, by decide, by decide⟩

/-! ### Counters, cursor and history -/

theorem processNextPage_hit (s : Sim) (h : s.currentStep < s.pageSequence.length)
    (hin : jsIncludes (seqAt s.pageSequence s.currentStep) s.frames = true) :
    processNextPage s =
      { s with
        pageHits := s.pageHits + 1
        history := s.history ++
          [{ step := s.currentStep, page := seqAt s.pageSequence s.currentStep,
             frames := s.frames, fault := false, hit := true }]
        currentStep := s.currentStep + 1 } := by
  have h2 : ¬ s.currentStep ≥ s.pageSequence.length := by omega
  simp only [processNextPage, h2, if_false, hin, if_true]

theorem processNextPage_fault (s : Sim) (h : s.currentStep < s.pageSequence.length)
    (hin : jsIncludes (seqAt s.pageSequence s.currentStep) s.frames = false) :
    processNextPage s =
      { s with
        pageFaults := s.pageFaults + 1
        frames :=
          if jsIncludes JSVal.null s.frames then
            arrayStore s.frames (jsIndexOf JSVal.null s.frames)
              (seqAt s.pageSequence s.currentStep)
          else
            arrayStore s.frames (selectVictim s s.frames) (seqAt s.pageSequence s.currentStep)
        history := s.history ++
          [{ step := s.currentStep, page := seqAt s.pageSequence s.currentStep,
             frames :=
              if jsIncludes JSVal.null s.frames then
                arrayStore s.frames (jsIndexOf JSVal.null s.frames)
                  (seqAt s.pageSequence s.currentStep)
              else
                arrayStore s.frames (selectVictim s s.frames)
                  (seqAt s.pageSequence s.currentStep),
             fault := true, hit := false }]
        currentStep := s.currentStep + 1 } := by
  have h2 : ¬ s.currentStep ≥ s.pageSequence.length := by omega
  simp only [processNextPage, h2, if_false, hin, Bool.false_eq_true]

theorem processNextPage_config (s : Sim) :
    (processNextPage s).algorithm = s.algorithm ∧
    (processNextPage s).pageFrames = s.pageFrames ∧
    (processNextPage s).pageSequence = s.pageSequence := by
  by_cases h : s.currentStep < s.pageSequence.length
  · cases hin : jsIncludes (seqAt s.pageSequence s.currentStep) s.frames
    · rw [processNextPage_fault s h hin]
      exact ⟨rfl, rfl, rfl⟩
    · rw [processNextPage_hit s h hin]
      exact ⟨rfl, rfl, rfl⟩
  · have : processNextPage s = s := by simp [processNextPage, Nat.le_of_not_lt h]
    rw [this]
    exact ⟨rfl, rfl, rfl⟩

theorem processNextPage_counts (s : Sim) (h : s.currentStep < s.pageSequence.length) :
    (processNextPage s).currentStep = s.currentStep + 1 ∧
    (processNextPage s).pageHits + (processNextPage s).pageFaults
      = s.pageHits + s.pageFaults + 1 ∧
    (processNextPage s).history.length = s.history.length + 1 := by
  cases hin : jsIncludes (seqAt s.pageSequence s.currentStep) s.frames
  · rw [processNextPage_fault s h hin]
    exact ⟨rfl, rfl, by simp⟩
  · rw [processNextPage_hit s h hin]
    refine ⟨rfl, ?_, by simp⟩
    show s.pageHits + 1 + s.pageFaults = _
    omega

theorem stepN_config (k : Nat) (s : Sim) :
    (stepN k s).algorithm = s.algorithm ∧
    (stepN k s).pageFrames = s.pageFrames ∧
    (stepN k s).pageSequence = s.pageSequence := by
  induction k generalizing s with
  | zero => exact ⟨rfl, rfl, rfl⟩
  | succ k ih =>
    obtain ⟨h1, h2, h3⟩ := ih (processNextPage s)
    obtain ⟨g1, g2, g3⟩ := processNextPage_config s
    exact ⟨h1.trans g1, h2.trans g2, h3.trans g3⟩

theorem stepN_counts (k : Nat) (s : Sim) (h : s.currentStep + k ≤ s.pageSequence.length) :
    (stepN k s).currentStep = s.currentStep + k ∧
    (stepN k s).pageHits + (stepN k s).pageFaults = s.pageHits + s.pageFaults + k ∧
    (stepN k s).history.length = s.history.length + k := by
  induction k generalizing s with
  | zero => exact ⟨rfl, rfl, rfl⟩
  | succ k ih =>
    obtain ⟨c1, c2, c3⟩ := processNextPage_counts s (by omega)
    have hseq := (processNextPage_config s).2.2
    obtain ⟨h1, h2, h3⟩ := ih (processNextPage s) (by rw [hseq, c1]; omega)
    show (stepN k (processNextPage s)).currentStep = _ ∧
      (stepN k (processNextPage s)).pageHits + (stepN k (processNextPage s)).pageFaults = _ ∧
      (stepN k (processNextPage s)).history.length = _
    refine ⟨?_, ?_, ?_⟩ <;> omega

theorem stepN_add (j k : Nat) (s : Sim) : stepN (j + k) s = stepN k (stepN j s) := by
  induction j generalizing s with
  | zero => simp [stepN]
  | succ j ih =>
    have : j + 1 + k = (j + k) + 1 := by omega
    rw [this]
    exact ih (processNextPage s)

theorem stepN_succ_last (k : Nat) (s : Sim) :
    stepN (k + 1) s = processNextPage (stepN k s) := by
  rw [stepN_add k 1 s]
  rfl

/-- C2: for every frame count >= 1, every policy, every non-empty reference sequence and every
`k <= length(sequence)`, after `resetSimulation` followed by `k` calls of `processNextPage`:
`pageHits + pageFaults = currentStep = length(history) = k`. -/
theorem counters_match_cursor (s : Sim) (k : Nat)
    (_hframes : 1 ≤ s.pageFrames) (_hseq : s.pageSequence ≠ [])
    (hk : k ≤ s.pageSequence.length) :
    (stepN k (resetSimulation s)).pageHits + (stepN k (resetSimulation s)).pageFaults
      = (stepN k (resetSimulation s)).currentStep ∧
    (stepN k (resetSimulation s)).currentStep
      = (stepN k (resetSimulation s)).history.length ∧
    (stepN k (resetSimulation s)).history.length = k := by
  have h := stepN_counts k (resetSimulation s) (by
    show 0 + k ≤ s.pageSequence.length
    omega)
  obtain ⟨h1, h2, h3⟩ := h
  have e1 : (resetSimulation s).currentStep = 0 := rfl
  have e2 : (resetSimulation s).pageHits = 0 := rfl
  have e3 : (resetSimulation s).pageFaults = 0 := rfl
  have e4 : (resetSimulation s).history.length = 0 := rfl
  refine ⟨?_, ?_, ?_⟩ <;> omega

theorem counters_match_cursor_witness :
    1 ≤ (configure .lru 2 [7, 8, 7, 9]).pageFrames ∧
    (configure .lru 2 [7, 8, 7, 9]).pageSequence ≠ [] ∧
    3 ≤ (configure .lru 2 [7, 8, 7, 9]).pageSequence.length ∧
    (stepN 3 (resetSimulation (configure .lru 2 [7, 8, 7, 9]))).pageHits
      + (stepN 3 (resetSimulation (configure .lru 2 [7, 8, 7, 9]))).pageFaults
      = (stepN 3 (resetSimulation (configure .lru 2 [7, 8, 7, 9]))).currentStep ∧
    (stepN 3 (resetSimulation (configure .lru 2 [7, 8, 7, 9]))).currentStep
      = (stepN 3 (resetSimulation (configure .lru 2 [7, 8, 7, 9]))).history.length ∧
    (stepN 3 (resetSimulation (configure .lru 2 [7, 8, 7, 9]))).history.length = 3 :=
  ⟨by decide, by decide, by decide,
    counters_match_cursor (configure .lru 2 [7, 8, 7, 9]) 3 (by decide) (by decide) (by decide)⟩

/-- C5 (what the code computes): with 3 frames, FIFO and the sequence
1,2,3,4,1,2,5,1,2,3,4,5 the full run ends exhausted with 10 faults and 2 hits, not the 9
faults and 3 hits of first-in-first-out replacement: the victim index
`currentStep % pageFrames` also advances on hits, so at step 9 (page 3) it evicts frame 0,
which holds page 5, the page loaded last. -/
theorem fifo_sample_run_counts :
    (fullRun (configure .fifo 3 [1, 2, 3, 4, 1, 2, 5, 1, 2, 3, 4, 5])).pageFaults = 10 ∧
    (fullRun (configure .fifo 3 [1, 2, 3, 4, 1, 2, 5, 1, 2, 3, 4, 5])).pageHits = 2 ∧
    (fullRun (configure .fifo 3 [1, 2, 3, 4, 1, 2, 5, 1, 2, 3, 4, 5])).currentStep = 12 ∧
    (stepN 9 (resetSimulation (configure .fifo 3 [1, 2, 3, 4, 1, 2, 5, 1, 2, 3, 4, 5]))).frames
      = [.num 5, .num 1, .num 2] ∧
    (stepN 10 (resetSimulation (configure .fifo 3 [1, 2, 3, 4, 1, 2, 5, 1, 2, 3, 4, 5]))).frames
      = [.num 3, .num 1, .num 2] := by
  decide

/-! ### Order facts on `JSNum`, `Math.min`, `Math.max`, `indexOf` -/

theorem JSNum.le_refl (a : JSNum) : a.le a = true := by
  cases a <;> simp [JSNum.le]

theorem JSNum.le_total (a b : JSNum) (h : a.le b = false) : b.le a = true := by
  cases a <;> cases b <;> simp_all [JSNum.le]
  omega

theorem JSNum.le_trans (a b c : JSNum) (h1 : a.le b = true) (h2 : b.le c = true) :
    a.le c = true := by
  cases a <;> cases b <;> cases c <;> simp_all [JSNum.le]
  omega

theorem mathMin_le (xs : List JSNum) (x : JSNum) (hx : x ∈ xs) : (mathMin xs).le x = true := by
  induction xs with
  | nil => simp at hx
  | cons y ys ih =>
    simp only [mathMin]
    rcases List.mem_cons.1 hx with rfl | hmem
    · by_cases hle : x.le (mathMin ys) = true
      · simp [hle, JSNum.le_refl]
      · simp only [hle, if_false]
        exact JSNum.le_total _ _ (by simpa using hle)
    · by_cases hle : y.le (mathMin ys) = true
      · simp only [hle, if_true]
        exact JSNum.le_trans _ _ _ hle (ih hmem)
      · simp only [hle, if_false]
        exact ih hmem

theorem mathMin_mem (xs : List JSNum) (hne : xs ≠ []) : mathMin xs ∈ xs := by
  induction xs with
  | nil => exact absurd rfl hne
  | cons y ys ih =>
    simp only [mathMin]
    by_cases hle : y.le (mathMin ys) = true
    · simp [hle]
    · simp only [hle, if_false]
      cases ys with
      | nil => simp [mathMin, JSNum.le] at hle
               cases y <;> simp_all [JSNum.le]
      | cons z zs => exact List.mem_cons_of_mem _ (ih (by simp))

theorem mathMax_ge (xs : List JSNum) (x : JSNum) (hx : x ∈ xs) : x.le (mathMax xs) = true := by
  induction xs with
  | nil => simp at hx
  | cons y ys ih =>
    simp only [mathMax]
    rcases List.mem_cons.1 hx with rfl | hmem
    · by_cases hle : (mathMax ys).le x = true
      · simp [hle, JSNum.le_refl]
      · simp only [hle, if_false]
        exact JSNum.le_total _ _ (by simpa using hle)
    · by_cases hle : (mathMax ys).le y = true
      · simp only [hle, if_true]
        exact JSNum.le_trans _ _ _ (ih hmem) hle
      · simp only [hle, if_false]
        exact ih hmem

theorem mathMax_mem (xs : List JSNum) (hne : xs ≠ []) : mathMax xs ∈ xs := by
  induction xs with
  | nil => exact absurd rfl hne
  | cons y ys ih =>
    simp only [mathMax]
    by_cases hle : (mathMax ys).le y = true
    · simp [hle]
    · simp only [hle, if_false]
      cases ys with
      | nil => simp [mathMax, JSNum.le] at hle
      | cons z zs => exact List.mem_cons_of_mem _ (ih (by simp))

theorem jsIndexOf_of_mem {α : Type} [DecidableEq α] (v : α) (xs : List α) (hv : v ∈ xs) :
    ∃ i, jsIndexOf v xs = some i ∧ ∃ hi : i < xs.length, xs[i] = v ∧
      ∀ j, ∀ hj : j < xs.length, j < i → xs[j] ≠ v := by
  induction xs with
  | nil => simp at hv
  | cons y ys ih =>
    by_cases hy : y = v
    · exact ⟨0, by simp [jsIndexOf, hy], by simp, by simpa using hy,
        fun j _ hj => absurd hj (Nat.not_lt_zero j)⟩
    · have hmem : v ∈ ys := by
        rcases List.mem_cons.1 hv with h | h
        · exact absurd h.symm hy
        · exact h
      obtain ⟨i, h1, hi, h2, h3⟩ := ih hmem
      refine ⟨i + 1, by simp [jsIndexOf, hy, h1], by simpa using hi, by simpa using h2, ?_⟩
      intro j hj hji
      cases j with
      | zero => simpa using hy
      | succ j =>
        have := h3 j (by simpa using hj) (by omega)
        simpa using this

theorem jsIndexOf_none {α : Type} [DecidableEq α] (v : α) (xs : List α) (hv : v ∉ xs) :
    jsIndexOf v xs = none := by
  induction xs with
  | nil => rfl
  | cons y ys ih =>
    have hy : ¬ y = v := fun h => hv (by simp [h])
    have hmem : v ∉ ys := fun h => hv (List.mem_cons_of_mem _ h)
    simp [jsIndexOf, hy, ih hmem]

theorem jsIncludes_iff {α : Type} [DecidableEq α] (v : α) (xs : List α) :
    jsIncludes v xs = true ↔ v ∈ xs := by
  simp [jsIncludes]

theorem jsIncludes_false_iff {α : Type} [DecidableEq α] (v : α) (xs : List α) :
    jsIncludes v xs = false ↔ v ∉ xs := by
  simp [jsIncludes]

/-- The index `indexOf(Math.min(...xs))` of a non-empty list: the lowest index of a least
element. -/
theorem argmin_first (xs : List JSNum) (hne : xs ≠ []) :
    ∃ v, jsIndexOf (mathMin xs) xs = some v ∧ ∃ hv : v < xs.length,
      (∀ j, ∀ hj : j < xs.length, (xs[v]).le xs[j] = true) ∧
      (∀ j, ∀ hj : j < xs.length, j < v → xs[j] ≠ xs[v]) := by
  obtain ⟨v, h1, hv, h2, h3⟩ := jsIndexOf_of_mem (mathMin xs) xs (mathMin_mem xs hne)
  refine ⟨v, h1, hv, ?_, ?_⟩
  · intro j hj
    rw [h2]
    exact mathMin_le xs _ (List.getElem_mem _)
  · intro j hj hjv
    rw [h2]
    exact h3 j hj hjv

/-- The index `indexOf(Math.max(...xs))` of a non-empty list: the lowest index of a greatest
element. -/
theorem argmax_first (xs : List JSNum) (hne : xs ≠ []) :
    ∃ v, jsIndexOf (mathMax xs) xs = some v ∧ ∃ hv : v < xs.length,
      (∀ j, ∀ hj : j < xs.length, (xs[j]).le xs[v] = true) ∧
      (∀ j, ∀ hj : j < xs.length, j < v → xs[j] ≠ xs[v]) := by
  obtain ⟨v, h1, hv, h2, h3⟩ := jsIndexOf_of_mem (mathMax xs) xs (mathMax_mem xs hne)
  refine ⟨v, h1, hv, ?_, ?_⟩
  · intro j hj
    rw [h2]
    exact mathMax_ge xs _ (List.getElem_mem _)
  · intro j hj hjv
    rw [h2]
    exact h3 j hj hjv

/-! ### Victim selection: LRU -/

theorem seqAt_eq_num (pageSequence : List Int) (i : Nat) (p : Int) :
    seqAt pageSequence i = .num p ↔ pageSequence[i]? = some p := by
  unfold seqAt
  cases pageSequence[i]? <;> simp

theorem seqAt_of_lt (pageSequence : List Int) (i : Nat) (h : i < pageSequence.length) :
    seqAt pageSequence i = .num pageSequence[i] := by
  simp [seqAt, List.getElem?_eq_getElem h]

theorem lastUsedOf_spec (pageSequence : List Int) (p : Int) (c : Nat) :
    IsLastUsedIndex pageSequence c p (lastUsedOf pageSequence (.num p) c) := by
  induction c with
  | zero => exact Or.inl ⟨rfl, fun i hi => absurd hi (Nat.not_lt_zero i)⟩
  | succ c ih =>
    simp only [lastUsedOf]
    by_cases hc : seqAt pageSequence c = .num p
    · simp only [hc, if_true]
      refine Or.inr ⟨c, by omega, rfl, (seqAt_eq_num _ _ _).1 hc, ?_⟩
      intro j hj hcj
      omega
    · simp only [hc, if_false]
      have hc2 : pageSequence[c]? ≠ some p := fun h => hc ((seqAt_eq_num _ _ _).2 h)
      rcases ih with ⟨h1, h2⟩ | ⟨i, hi, h1, h2, h3⟩
      · refine Or.inl ⟨h1, ?_⟩
        intro i hi
        by_cases hic : i = c
        · rw [hic]; exact hc2
        · exact h2 i (by omega)
      · refine Or.inr ⟨i, by omega, h1, h2, ?_⟩
        intro j hj hij
        by_cases hjc : j = c
        · rw [hjc]; exact hc2
        · exact h3 j (by omega) hij

theorem isLastUsedIndex_unique (pageSequence : List Int) (c : Nat) (p : Int) (r r2 : Int)
    (h : IsLastUsedIndex pageSequence c p r) (h2 : IsLastUsedIndex pageSequence c p r2) :
    r = r2 := by
  rcases h with ⟨a1, a2⟩ | ⟨i, hi, a1, a2, a3⟩ <;>
    rcases h2 with ⟨b1, b2⟩ | ⟨k, hk, b1, b2, b3⟩
  · rw [a1, b1]
  · exact absurd b2 (a2 k hk)
  · exact absurd a2 (b2 i hi)
  · rw [a1, b1]
    rcases Nat.lt_trichotomy i k with hlt | heq | hgt
    · exact absurd b2 (a3 k hk hlt)
    · rw [heq]
    · exact absurd a2 (b3 i hi hgt)

/-- C7: under LRU, for every full frame table (at least one slot, slot `j` holding page
`pages[j]`), every reference sequence and cursor, `selectVictim` returns a frame index `v`
such that, for the last-used indices `lu j` of the frames as the specification defines them
(greatest `i` in `[0, cursor - 1]` with `sequence[i]` the page, `-1` if none), `lu v` is
minimal among all frames and every frame of lower index has a strictly greater one. -/
theorem selectVictim_lru_lowest_least_recent (s : Sim) (pages : List Int)
    (halg : s.algorithm = .lru) (hne : pages ≠ []) :
    ∃ v, selectVictim s (pages.map JSVal.num) = some v ∧ v < pages.length ∧
      ∀ lu : Nat → Int,
        (∀ j, ∀ hj : j < pages.length,
          IsLastUsedIndex s.pageSequence s.currentStep pages[j] (lu j)) →
        (∀ j, j < pages.length → lu v ≤ lu j) ∧ (∀ j, j < v → lu v < lu j) := by
  have hne2 : (pages.map JSVal.num).map
      (fun frame => JSNum.fin (lastUsedOf s.pageSequence frame s.currentStep)) ≠ [] := by
    simpa using hne
  obtain ⟨v, h1, hv, h2, h3⟩ := argmin_first _ hne2
  have hv2 : v < pages.length := by simpa using hv
  refine ⟨v, by simp only [selectVictim, halg]; exact h1, hv2, ?_⟩
  intro lu hlu
  have key : ∀ j, ∀ hj : j < pages.length,
      lu j = lastUsedOf s.pageSequence (.num pages[j]) s.currentStep := fun j hj =>
    isLastUsedIndex_unique _ _ _ _ _ (hlu j hj) (lastUsedOf_spec _ _ _)
  constructor
  · intro j hj
    have := h2 j (by simpa using hj)
    simp only [List.getElem_map, JSNum.le, decide_eq_true_eq] at this
    rw [key v hv2, key j hj]
    exact this
  · intro j hjv
    have hj : j < pages.length := by omega
    have hle := h2 j (by simpa using hj)
    have hneq := h3 j (by simpa using hj) hjv
    simp only [List.getElem_map, JSNum.le, decide_eq_true_eq] at hle
    simp only [List.getElem_map, ne_eq, JSNum.fin.injEq] at hneq
    rw [key v hv2, key j hj]
    omega

theorem selectVictim_lru_lowest_least_recent_witness :
    (victimSample .lru).algorithm = .lru ∧ [4, 1, 2] ≠ ([] : List Int) ∧
    selectVictim (victimSample .lru) ([4, 1, 2].map JSVal.num) = some 0 ∧
    ∃ v, selectVictim (victimSample .lru) ([4, 1, 2].map JSVal.num) = some v ∧
      v < [4, 1, 2].length ∧
      ∀ lu : Nat → Int,
        (∀ j, ∀ hj : j < [4, 1, 2].length,
          IsLastUsedIndex (victimSample .lru).pageSequence (victimSample .lru).currentStep
            ([4, 1, 2].get ⟨j, hj⟩) (lu j)) →
        (∀ j, j < [4, 1, 2].length → lu v ≤ lu j) ∧ (∀ j, j < v → lu v < lu j) :=
  ⟨rfl, by decide, by decide,
    selectVictim_lru_lowest_least_recent (victimSample .lru) [4, 1, 2] rfl (by decide)⟩

/-! ### Victim selection: OPTIMAL -/

theorem scanForward_spec (pageSequence : List Int) (x : JSVal) (fuel i : Nat) :
    (scanForward pageSequence x fuel i = .posInf ∧
      ∀ j, i ≤ j → j < i + fuel → seqAt pageSequence j ≠ x) ∨
    (∃ k : Nat, scanForward pageSequence x fuel i = .fin (k : Int) ∧ i ≤ k ∧ k < i + fuel ∧
      seqAt pageSequence k = x ∧ ∀ j, i ≤ j → j < k → seqAt pageSequence j ≠ x) := by
  induction fuel generalizing i with
  | zero =>
    refine Or.inl ⟨rfl, ?_⟩
    intro j h1 h2
    omega
  | succ fuel ih =>
    simp only [scanForward]
    by_cases hi : seqAt pageSequence i = x
    · simp only [hi, if_true]
      refine Or.inr ⟨i, rfl, Nat.le_refl i, by omega, hi, ?_⟩
      intro j h1 h2
      omega
    · simp only [hi, if_false]
      rcases ih (i + 1) with ⟨h1, h2⟩ | ⟨k, h1, h2, h3, h4, h5⟩
      · refine Or.inl ⟨h1, ?_⟩
        intro j hj1 hj2
        by_cases hji : j = i
        · rw [hji]; exact hi
        · exact h2 j (by omega) (by omega)
      · refine Or.inr ⟨k, h1, by omega, by omega, h4, ?_⟩
        intro j hj1 hj2
        by_cases hji : j = i
        · rw [hji]; exact hi
        · exact h5 j (by omega) hj2

theorem nextUseOf_spec (pageSequence : List Int) (x : JSVal) (c : Nat) :
    (nextUseOf pageSequence x c = .posInf ∧
      ∀ j, c < j → j < pageSequence.length → seqAt pageSequence j ≠ x) ∨
    (∃ k : Nat, nextUseOf pageSequence x c = .fin (k : Int) ∧ c < k ∧
      k < pageSequence.length ∧ seqAt pageSequence k = x ∧
      ∀ j, c < j → j < k → seqAt pageSequence j ≠ x) := by
  unfold nextUseOf
  rcases scanForward_spec pageSequence x (pageSequence.length - (c + 1)) (c + 1) with
    ⟨h1, h2⟩ | ⟨k, h1, h2, h3, h4, h5⟩
  · refine Or.inl ⟨h1, ?_⟩
    intro j hj1 hj2
    exact h2 j (by omega) (by omega)
  · refine Or.inr ⟨k, h1, by omega, by omega, h4, ?_⟩
    intro j hj1 hj2
    exact h5 j (by omega) hj2

theorem nextUseOf_of_isNextUseIndex (pageSequence : List Int) (c : Nat) (p : Int)
    (r : WithTop Nat) (h : IsNextUseIndex pageSequence c p r) :
    nextUseOf pageSequence (.num p) c = nextUseToJS r := by
  rcases nextUseOf_spec pageSequence (.num p) c with ⟨h1, h2⟩ | ⟨k, h1, h2, h3, h4, h5⟩
  · rcases h with ⟨a1, _⟩ | ⟨i, hi, a1, a2, a3, _⟩
    · rw [h1, a1]; rfl
    · exact absurd ((seqAt_eq_num _ _ _).2 a3) (h2 i a2 hi)
  · rcases h with ⟨_, a2⟩ | ⟨i, hi, a1, a2, a3, a4⟩
    · exact absurd ((seqAt_eq_num _ _ _).1 h4) (a2 k h3 h2)
    · rw [h1, a1]
      rcases Nat.lt_trichotomy i k with hlt | heq | hgt
      · exact absurd ((seqAt_eq_num _ _ _).2 a3) (h5 i a2 hlt)
      · rw [heq]; rfl
      · exact absurd ((seqAt_eq_num _ _ _).1 h4) (a4 k hgt h2)

theorem nextUseToJS_le (a b : WithTop Nat) :
    (nextUseToJS a).le (nextUseToJS b) = true ↔ a ≤ b := by
  induction a using WithTop.recTopCoe <;> induction b using WithTop.recTopCoe
  · simp [nextUseToJS, JSNum.le]
  · simp [nextUseToJS, JSNum.le]
  · simp [nextUseToJS, JSNum.le]
  · simp [nextUseToJS, JSNum.le]

theorem nextUseToJS_injective (a b : WithTop Nat) (h : nextUseToJS a = nextUseToJS b) :
    a = b := by
  induction a using WithTop.recTopCoe <;> induction b using WithTop.recTopCoe
  · rfl
  · simp [nextUseToJS] at h
  · simp [nextUseToJS] at h
  · simp [nextUseToJS] at h
    rw [h]

/-- C8: under OPTIMAL, for every full frame table (at least one slot, slot `j` holding page
`pages[j]`), every reference sequence and cursor, `selectVictim` returns a frame index `v`
such that, for the next-use indices `nu j` of the frames as the specification defines them
(least `i` in `[cursor + 1, length - 1]` with `sequence[i]` the page, `+infinity` if none),
`nu v` is maximal among all frames and every frame of lower index has a strictly smaller
one. -/
theorem selectVictim_optimal_lowest_farthest (s : Sim) (pages : List Int)
    (halg : s.algorithm = .optimal) (hne : pages ≠ []) :
    ∃ v, selectVictim s (pages.map JSVal.num) = some v ∧ v < pages.length ∧
      ∀ nu : Nat → WithTop Nat,
        (∀ j, ∀ hj : j < pages.length,
          IsNextUseIndex s.pageSequence s.currentStep pages[j] (nu j)) →
        (∀ j, j < pages.length → nu j ≤ nu v) ∧ (∀ j, j < v → nu j < nu v) := by
  have hne2 : (pages.map JSVal.num).map
      (fun frame => nextUseOf s.pageSequence frame s.currentStep) ≠ [] := by
    simpa using hne
  obtain ⟨v, h1, hv, h2, h3⟩ := argmax_first _ hne2
  have hv2 : v < pages.length := by simpa using hv
  refine ⟨v, by simp only [selectVictim, halg]; exact h1, hv2, ?_⟩
  intro nu hnu
  have key : ∀ j, ∀ hj : j < pages.length,
      nextUseOf s.pageSequence (.num pages[j]) s.currentStep = nextUseToJS (nu j) :=
    fun j hj => nextUseOf_of_isNextUseIndex _ _ _ _ (hnu j hj)
  have hle : ∀ j, j < pages.length → nu j ≤ nu v := by
    intro j hj
    have := h2 j (by simpa using hj)
    simp only [List.getElem_map] at this
    rw [key v hv2, key j hj] at this
    exact (nextUseToJS_le _ _).1 this
  refine ⟨hle, ?_⟩
  intro j hjv
  have hj : j < pages.length := by omega
  have hneq := h3 j (by simpa using hj) hjv
  simp only [List.getElem_map, ne_eq] at hneq
  rw [key v hv2, key j hj] at hneq
  exact lt_of_le_of_ne (hle j hj) (fun h => hneq (by rw [h]))

theorem selectVictim_optimal_lowest_farthest_witness :
    (victimSample .optimal).algorithm = .optimal ∧ [4, 1, 2] ≠ ([] : List Int) ∧
    selectVictim (victimSample .optimal) ([4, 1, 2].map JSVal.num) = some 1 ∧
    ∃ v, selectVictim (victimSample .optimal) ([4, 1, 2].map JSVal.num) = some v ∧
      v < [4, 1, 2].length ∧
      ∀ nu : Nat → WithTop Nat,
        (∀ j, ∀ hj : j < [4, 1, 2].length,
          IsNextUseIndex (victimSample .optimal).pageSequence
            (victimSample .optimal).currentStep ([4, 1, 2].get ⟨j, hj⟩) (nu j)) →
        (∀ j, j < [4, 1, 2].length → nu j ≤ nu v) ∧ (∀ j, j < v → nu j < nu v) :=
  ⟨rfl, by decide, by decide,
    selectVictim_optimal_lowest_farthest (victimSample .optimal) [4, 1, 2] rfl (by decide)⟩

/-! ### One step on the frame table -/

theorem arrayStore_of_lt (arr : List JSVal) (i : Nat) (v : JSVal) (h : i < arr.length) :
    arrayStore arr (some i) v = arr.set i v := by
  simp [arrayStore, h]

theorem selectVictim_valid (s : Sim) (frames : List JSVal)
    (hlen : (frames.length : Int) = s.pageFrames) (hpos : 1 ≤ s.pageFrames) :
    ∃ i, selectVictim s frames = some i ∧ i < frames.length := by
  have hne : frames ≠ [] := by
    intro h
    rw [h] at hlen
    simp at hlen
    omega
  unfold selectVictim
  cases s.algorithm with
  | fifo =>
    have h0 : ¬ s.pageFrames = 0 := by omega
    refine ⟨s.currentStep % s.pageFrames.natAbs, by simp [h0], ?_⟩
    have hlen2 : frames.length = s.pageFrames.natAbs := by omega
    rw [hlen2]
    exact Nat.mod_lt _ (by omega)
  | lru =>
    obtain ⟨v, h1, hv, _⟩ := argmin_first
      (frames.map (fun frame => JSNum.fin (lastUsedOf s.pageSequence frame s.currentStep)))
      (by simpa using hne)
    exact ⟨v, h1, by simpa using hv⟩
  | optimal =>
    obtain ⟨v, h1, hv, _⟩ := argmax_first
      (frames.map (fun frame => nextUseOf s.pageSequence frame s.currentStep))
      (by simpa using hne)
    exact ⟨v, h1, by simpa using hv⟩

/-- The slot written on a fault: the first empty slot if there is one, else the victim. -/
theorem fault_slot (s : Sim) (hwf : WellFormed s) (page : JSVal) :
    ∃ i, ∃ hi : i < s.frames.length,
      (if jsIncludes JSVal.null s.frames then
          arrayStore s.frames (jsIndexOf JSVal.null s.frames) page
        else arrayStore s.frames (selectVictim s s.frames) page) = s.frames.set i page ∧
      (JSVal.null ∈ s.frames → s.frames[i] = JSVal.null ∧
        ∀ j, ∀ hj : j < s.frames.length, j < i → s.frames[j] ≠ JSVal.null) ∧
      (JSVal.null ∉ s.frames → selectVictim s s.frames = some i) := by
  by_cases hnull : JSVal.null ∈ s.frames
  · obtain ⟨i, h1, hi, h2, h3⟩ := jsIndexOf_of_mem JSVal.null s.frames hnull
    refine ⟨i, hi, ?_, fun _ => ⟨h2, h3⟩, fun h => absurd hnull h⟩
    rw [if_pos ((jsIncludes_iff _ _).2 hnull), h1, arrayStore_of_lt _ _ _ hi]
  · obtain ⟨i, h1, hi⟩ := selectVictim_valid s s.frames hwf.1 hwf.2
    refine ⟨i, hi, ?_, fun h => absurd h hnull, fun _ => h1⟩
    have : jsIncludes JSVal.null s.frames = false := (jsIncludes_false_iff _ _).2 hnull
    rw [this, h1, arrayStore_of_lt _ _ _ hi]
    simp

/-- C1: in every simulator state (frame table of `pageFrames >= 1` slots) with
`currentStep < pageSequence.length`, one call of `processNextPage` with
`page = pageSequence[currentStep]`: if the page already occupies a frame, records a HIT and
leaves the frame table unchanged; otherwise records a FAULT and the new frame table differs
from the old one in exactly one slot `i`, which now holds the page; `i` is the lowest-index
empty slot whenever a slot is empty, and the slot returned by `selectVictim` otherwise. -/
theorem processNextPage_frame_table (s : Sim) (hwf : WellFormed s)
    (hc : s.currentStep < s.pageSequence.length) :
    (seqAt s.pageSequence s.currentStep ∈ s.frames →
      (processNextPage s).frames = s.frames ∧
      (processNextPage s).history = s.history ++
        [{ step := s.currentStep, page := seqAt s.pageSequence s.currentStep,
           frames := s.frames, fault := false, hit := true }] ∧
      (processNextPage s).pageHits = s.pageHits + 1 ∧
      (processNextPage s).pageFaults = s.pageFaults) ∧
    (seqAt s.pageSequence s.currentStep ∉ s.frames →
      (processNextPage s).history = s.history ++
        [{ step := s.currentStep, page := seqAt s.pageSequence s.currentStep,
           frames := (processNextPage s).frames, fault := true, hit := false }] ∧
      (processNextPage s).pageFaults = s.pageFaults + 1 ∧
      (processNextPage s).pageHits = s.pageHits ∧
      ∃ i, ∃ hi : i < s.frames.length,
        (processNextPage s).frames.length = s.frames.length ∧
        (processNextPage s).frames[i]? = some (seqAt s.pageSequence s.currentStep) ∧
        (∀ j : Nat, (processNextPage s).frames[j]? ≠ s.frames[j]? ↔ j = i) ∧
        (JSVal.null ∈ s.frames → s.frames[i] = JSVal.null ∧
          ∀ j, ∀ hj : j < s.frames.length, j < i → s.frames[j] ≠ JSVal.null) ∧
        (JSVal.null ∉ s.frames → selectVictim s s.frames = some i)) := by
  constructor
  · intro hin
    rw [processNextPage_hit s hc ((jsIncludes_iff _ _).2 hin)]
    exact ⟨rfl, rfl, rfl, rfl⟩
  · intro hnot
    rw [processNextPage_fault s hc ((jsIncludes_false_iff _ _).2 hnot)]
    obtain ⟨i, hi, h1, h2, h3⟩ := fault_slot s hwf (seqAt s.pageSequence s.currentStep)
    refine ⟨rfl, rfl, rfl, i, hi, ?_, ?_, ?_, h2, h3⟩
    · show (ite _ _ _ : List JSVal).length = _
      rw [h1]; simp
    · show (ite _ _ _ : List JSVal)[i]? = _
      rw [h1]; simp [hi]
    · intro j
      show (ite _ _ _ : List JSVal)[j]? ≠ _ ↔ _
      rw [h1]
      by_cases hji : j = i
      · subst hji
        simp only [iff_true]
        rw [List.getElem?_set_self hi, List.getElem?_eq_getElem hi]
        intro h
        apply hnot
        rw [Option.some.inj h]
        exact List.getElem_mem _
      · simp only [hji, iff_false, not_not]
        exact List.getElem?_set_ne (fun h => hji h.symm)

theorem processNextPage_frame_table_witness :
    WellFormed (stepN 3 (resetSimulation initialState)) ∧
    (stepN 3 (resetSimulation initialState)).currentStep
      < (stepN 3 (resetSimulation initialState)).pageSequence.length ∧
    (stepN 3 (resetSimulation initialState)).frames = [.num 1, .num 2, .num 3] ∧
    (processNextPage (stepN 3 (resetSimulation initialState))).frames
      = [.num 4, .num 2, .num 3] ∧
    seqAt (stepN 3 (resetSimulation initialState)).pageSequence
      (stepN 3 (resetSimulation initialState)).currentStep
      ∉ (stepN 3 (resetSimulation initialState)).frames ∧
    ∃ i : Nat, (processNextPage (stepN 3 (resetSimulation initialState))).frames[i]?
        = some (JSVal.num 4) ∧
      ∀ j : Nat, (processNextPage (stepN 3 (resetSimulation initialState))).frames[j]?
          ≠ (stepN 3 (resetSimulation initialState)).frames[j]? ↔ j = i := by
  have hnot : seqAt (stepN 3 (resetSimulation initialState)).pageSequence
      (stepN 3 (resetSimulation initialState)).currentStep
      ∉ (stepN 3 (resetSimulation initialState)).frames := by decide
  obtain ⟨_, _, _, i, _, _, h2, h3, _⟩ :=
    (processNextPage_frame_table (stepN 3 (resetSimulation initialState))
      (by decide) (by decide)).2 hnot
  exact ⟨by decide, by decide, by decide, by decide, hnot, i, h2, h3⟩

/-! ### Reachable states -/

/-- What one call does to the frame table and the fault counter of a well-formed,
non-exhausted state. -/
theorem processNextPage_cases (s : Sim) (hwf : WellFormed s)
    (hc : s.currentStep < s.pageSequence.length) :
    (seqAt s.pageSequence s.currentStep ∈ s.frames ∧
      (processNextPage s).frames = s.frames ∧
      (processNextPage s).pageFaults = s.pageFaults) ∨
    (seqAt s.pageSequence s.currentStep ∉ s.frames ∧
      (processNextPage s).pageFaults = s.pageFaults + 1 ∧
      ∃ i, ∃ hi : i < s.frames.length,
        (processNextPage s).frames = s.frames.set i (seqAt s.pageSequence s.currentStep) ∧
        (JSVal.null ∈ s.frames → s.frames[i] = JSVal.null) ∧
        (JSVal.null ∉ s.frames → selectVictim s s.frames = some i)) := by
  by_cases hin : seqAt s.pageSequence s.currentStep ∈ s.frames
  · left
    rw [processNextPage_hit s hc ((jsIncludes_iff _ _).2 hin)]
    exact ⟨hin, rfl, rfl⟩
  · right
    rw [processNextPage_fault s hc ((jsIncludes_false_iff _ _).2 hin)]
    obtain ⟨i, hi, h1, h2, h3⟩ := fault_slot s hwf (seqAt s.pageSequence s.currentStep)
    exact ⟨hin, rfl, i, hi, h1, fun h => (h2 h).1, h3⟩

theorem noDuplicatePage_set (frames : List JSVal) (i : Nat) (page : JSVal)
    (hnd : NoDuplicatePage frames) (hnot : page ∉ frames) :
    NoDuplicatePage (frames.set i page) := by
  intro a b p ha hb
  rw [List.getElem?_set] at ha hb
  by_cases hia : i = a
  · by_cases hib : i = b
    · omega
    · exfalso
      simp only [hia, if_true] at ha
      simp only [hib, if_false] at hb
      split at ha
      · rw [Option.some.inj ha] at hnot
        exact hnot (List.getElem?_mem hb)
      · simp at ha
  · simp only [hia, if_false] at ha
    by_cases hib : i = b
    · exfalso
      simp only [hib, if_true] at hb
      split at hb
      · rw [Option.some.inj hb] at hnot
        exact hnot (List.getElem?_mem ha)
      · simp at hb
    · simp only [hib, if_false] at hb
      exact hnd a b p ha hb

theorem processNextPage_invariant (s : Sim) (hwf : WellFormed s)
    (hnd : NoDuplicatePage s.frames) :
    WellFormed (processNextPage s) ∧ NoDuplicatePage (processNextPage s).frames := by
  have hcfg := (processNextPage_config s).2.1
  by_cases hc : s.currentStep < s.pageSequence.length
  · rcases processNextPage_cases s hwf hc with ⟨_, h1, _⟩ | ⟨hnot, _, i, hi, h1, _⟩
    · exact ⟨⟨by rw [h1, hcfg]; exact hwf.1, by rw [hcfg]; exact hwf.2⟩, by rw [h1]; exact hnd⟩
    · refine ⟨⟨?_, by rw [hcfg]; exact hwf.2⟩, ?_⟩
      · rw [h1, hcfg, List.length_set]; exact hwf.1
      · rw [h1]; exact noDuplicatePage_set _ _ _ hnd hnot
  · have : processNextPage s = s := by simp [processNextPage, Nat.le_of_not_lt hc]
    rw [this]
    exact ⟨hwf, hnd⟩

theorem resetSimulation_invariant (s : Sim) (h : 1 ≤ s.pageFrames) :
    WellFormed (resetSimulation s) ∧ NoDuplicatePage (resetSimulation s).frames := by
  refine ⟨⟨?_, h⟩, ?_⟩
  · show ((List.replicate s.pageFrames.toNat JSVal.null).length : Int) = s.pageFrames
    rw [List.length_replicate]
    omega
  intro i j p hi _
  have hmem := List.getElem?_mem hi
  simp [resetSimulation] at hmem

theorem stepN_invariant (k : Nat) (s : Sim) (hwf : WellFormed s)
    (hnd : NoDuplicatePage s.frames) :
    WellFormed (stepN k s) ∧ NoDuplicatePage (stepN k s).frames := by
  induction k generalizing s with
  | zero => exact ⟨hwf, hnd⟩
  | succ k ih =>
    obtain ⟨h1, h2⟩ := processNextPage_invariant s hwf hnd
    exact ih (processNextPage s) h1 h2

/-- C3: for every frame count >= 1, every policy and every reference sequence, in every state
reached from `resetSimulation` by any number of calls of `processNextPage` the frame table
holds no page id in two slots; it keeps its `pageFrames` slots, and the index returned by
`selectVictim` in such a state is a valid slot index. -/
theorem reachable_no_duplicate_page (s : Sim) (k : Nat) (h : 1 ≤ s.pageFrames) :
    NoDuplicatePage (stepN k (resetSimulation s)).frames ∧
    ((stepN k (resetSimulation s)).frames.length : Int) = s.pageFrames ∧
    ∃ v, selectVictim (stepN k (resetSimulation s)) (stepN k (resetSimulation s)).frames
        = some v ∧ v < (stepN k (resetSimulation s)).frames.length := by
  obtain ⟨h1, h2⟩ := resetSimulation_invariant s h
  obtain ⟨hwf, hnd⟩ := stepN_invariant k (resetSimulation s) h1 h2
  have hpf : (stepN k (resetSimulation s)).pageFrames = s.pageFrames :=
    (stepN_config k (resetSimulation s)).2.1
  exact ⟨hnd, by rw [hwf.1, hpf], selectVictim_valid _ _ hwf.1 hwf.2⟩

theorem reachable_no_duplicate_page_witness :
    1 ≤ (configure .lru 2 [7, 8, 7, 9]).pageFrames ∧
    (stepN 4 (resetSimulation (configure .lru 2 [7, 8, 7, 9]))).frames = [.num 7, .num 9] ∧
    NoDuplicatePage (stepN 4 (resetSimulation (configure .lru 2 [7, 8, 7, 9]))).frames :=
  ⟨by decide, by decide,
    (reachable_no_duplicate_page (configure .lru 2 [7, 8, 7, 9]) 4 (by decide)).1⟩

/-! ### OPTIMAL against any other victim choice -/

theorem refd_shift (pageSequence : List Int) (c t : Nat) (x : JSVal)
    (hx : x ≠ seqAt pageSequence c) :
    refd pageSequence (c + 1) t x ↔ refd pageSequence c t x := by
  constructor
  · rintro ⟨i, h1, h2, h3, h4⟩
    exact ⟨i, h1, by omega, h3, h4⟩
  · rintro ⟨i, h1, h2, h3, h4⟩
    refine ⟨i, h1, ?_, h3, h4⟩
    by_contra hlt
    have : i = c := by omega
    rw [this] at h4
    exact hx h4.symm

theorem refd_self (pageSequence : List Int) (c t : Nat) (hc : c < pageSequence.length) :
    refd pageSequence c t (seqAt pageSequence c) ↔ c < t := by
  constructor
  · rintro ⟨i, h1, h2, _, _⟩
    omega
  · intro h
    exact ⟨c, h, Nat.le_refl c, hc, rfl⟩

theorem refd_empty (pageSequence : List Int) (c t : Nat) (x : JSVal) (h : t ≤ c) :
    ¬ refd pageSequence c t x := by
  rintro ⟨i, h1, h2, _, _⟩
  omega

theorem refd_null (pageSequence : List Int) (c t : Nat) :
    ¬ refd pageSequence c t JSVal.null := by
  rintro ⟨i, _, _, h3, h4⟩
  rw [seqAt_of_lt _ _ h3] at h4
  simp at h4

theorem refd_one (pageSequence : List Int) (c : Nat) (x : JSVal)
    (h : refd pageSequence c (c + 1) x) : x = seqAt pageSequence c := by
  obtain ⟨i, h1, h2, _, h4⟩ := h
  have : i = c := by omega
  rw [this] at h4
  exact h4.symm

theorem refdCount_empty (pageSequence : List Int) (c t : Nat) (L : List JSVal) (h : t ≤ c) :
    refdCount pageSequence c t L = 0 := by
  unfold refdCount
  rw [List.countP_eq_zero]
  intro a _
  simpa using refd_empty pageSequence c t a h

theorem refdCount_le_length (pageSequence : List Int) (c t : Nat) (L : List JSVal) :
    refdCount pageSequence c t L ≤ L.length :=
  List.countP_le_length _

theorem refdCount_shift (pageSequence : List Int) (c t : Nat) (L : List JSVal)
    (hp : seqAt pageSequence c ∉ L) :
    refdCount pageSequence (c + 1) t L = refdCount pageSequence c t L := by
  unfold refdCount
  apply List.countP_congr
  intro x hx
  have hne : x ≠ seqAt pageSequence c := fun h => hp (h ▸ hx)
  simpa using refd_shift pageSequence c t x hne

theorem countP_set_add (P : JSVal → Bool) (L : List JSVal) (i : Nat) (a : JSVal)
    (h : i < L.length) :
    (L.set i a).countP P + (if P L[i] then 1 else 0)
      = L.countP P + (if P a then 1 else 0) := by
  have h1 := List.countP_set P L i a h
  have h2 := List.boole_getElem_le_countP P L i h
  omega

theorem refdCount_eq_length (pageSequence : List Int) (c t : Nat) (L : List JSVal)
    (h : ∀ x ∈ L, refd pageSequence c t x) :
    refdCount pageSequence c t L = L.length := by
  unfold refdCount
  rw [List.countP_eq_length]
  intro a ha
  simpa using h a ha

theorem refdCount_lt_length (pageSequence : List Int) (c t : Nat) (L : List JSVal)
    (x : JSVal) (hx : x ∈ L) (h : ¬ refd pageSequence c t x) :
    refdCount pageSequence c t L < L.length := by
  have hle := refdCount_le_length pageSequence c t L
  have hne : refdCount pageSequence c t L ≠ L.length := by
    unfold refdCount
    rw [Ne, List.countP_eq_length]
    intro hall
    have := hall x hx
    exact h (by simpa using this)
  omega

/-- Fault: slot `i` of a table without the referenced page is overwritten with it. -/
theorem refdCount_fault (pageSequence : List Int) (c t : Nat) (L : List JSVal) (i : Nat)
    (hi : i < L.length) (hp : seqAt pageSequence c ∉ L) :
    refdCount pageSequence (c + 1) t (L.set i (seqAt pageSequence c))
        + (if refd pageSequence c t L[i] then 1 else 0)
      = refdCount pageSequence c t L
        + (if refd pageSequence (c + 1) t (seqAt pageSequence c) then 1 else 0) := by
  have h1 := countP_set_add (fun x => decide (refd pageSequence (c + 1) t x)) L i
    (seqAt pageSequence c) hi
  have h2 := refdCount_shift pageSequence c t L hp
  have hne : L[i] ≠ seqAt pageSequence c := fun h => hp (h ▸ List.getElem_mem _)
  have h3 := refd_shift pageSequence c t L[i] hne
  unfold refdCount at h2 ⊢
  simp only [decide_eq_true_eq] at h1
  rw [← h2]
  simp only [h3] at h1
  exact h1

/-- Hit, any table: the count drops by at least the slot of the referenced page. -/
theorem refdCount_hit_le (pageSequence : List Int) (c t : Nat) (L : List JSVal)
    (hc : c < pageSequence.length) (ht : c < t) (hp : seqAt pageSequence c ∈ L) :
    refdCount pageSequence (c + 1) t L + 1
      ≤ refdCount pageSequence c t L
        + (if refd pageSequence (c + 1) t (seqAt pageSequence c) then 1 else 0) := by
  induction L with
  | nil => simp at hp
  | cons x xs ih =>
    have hself : refd pageSequence c t (seqAt pageSequence c) := (refd_self _ _ _ hc).2 ht
    unfold refdCount at ih ⊢
    simp only [List.countP_cons, decide_eq_true_eq]
    by_cases hx : x = seqAt pageSequence c
    · have hmono : List.countP (fun x => decide (refd pageSequence (c + 1) t x)) xs
          ≤ List.countP (fun x => decide (refd pageSequence c t x)) xs := by
        apply List.countP_mono_left
        intro y _ hy
        simp only [decide_eq_true_eq] at hy ⊢
        obtain ⟨i, h1, h2, h3, h4⟩ := hy
        exact ⟨i, h1, by omega, h3, h4⟩
      rw [hx]
      simp only [hself, if_true]
      split_ifs <;> omega
    · have hmem : seqAt pageSequence c ∈ xs := by
        rcases List.mem_cons.1 hp with h | h
        · exact absurd h.symm hx
        · exact h
      have := ih hmem
      have hsh := refd_shift pageSequence c t x hx
      simp only [hsh]
      split_ifs at this ⊢ <;> omega

theorem set_getElem_same (L : List JSVal) (i : Nat) (hi : i < L.length) :
    L.set i L[i] = L := by
  apply List.ext_getElem?
  intro j
  rw [List.getElem?_set]
  by_cases hij : i = j
  · subst hij
    simp [hi]
  · simp [hij]

/-- Hit, table without duplicates: the count changes by exactly the slot of the referenced
page. -/
theorem refdCount_hit_eq (pageSequence : List Int) (c t : Nat) (L : List JSVal)
    (hc : c < pageSequence.length) (ht : c < t) (hp : seqAt pageSequence c ∈ L)
    (hnd : NoDuplicatePage L) :
    refdCount pageSequence (c + 1) t L + 1
      = refdCount pageSequence c t L
        + (if refd pageSequence (c + 1) t (seqAt pageSequence c) then 1 else 0) := by
  obtain ⟨i, hi, hLi⟩ := List.getElem_of_mem hp
  have hnum : seqAt pageSequence c = .num pageSequence[c] := seqAt_of_lt _ _ hc
  have hp0 : seqAt pageSequence c ∉ L.set i JSVal.null := by
    intro hmem
    obtain ⟨j, hj, hLj⟩ := List.getElem_of_mem hmem
    rw [List.getElem_set] at hLj
    split at hLj
    · rw [hnum] at hLj; simp at hLj
    · rename_i hij
      have hj2 : j < L.length := by simpa using hj
      have e1 : L[i]? = some (JSVal.num pageSequence[c]) := by
        rw [List.getElem?_eq_getElem hi, hLi, hnum]
      have e2 : L[j]? = some (JSVal.num pageSequence[c]) := by
        rw [List.getElem?_eq_getElem hj2, hLj, hnum]
      exact hij (hnd i j _ e1 e2)
  have hi0 : i < (L.set i JSVal.null).length := by simpa using hi
  have hback : (L.set i JSVal.null).set i (seqAt pageSequence c) = L := by
    rw [List.set_set, ← hLi]
    exact set_getElem_same L i hi
  have h1 := refdCount_fault pageSequence c t (L.set i JSVal.null) i hi0 hp0
  rw [hback] at h1
  have hnull0 : (L.set i JSVal.null)[i] = JSVal.null := by simp
  rw [hnull0] at h1
  simp only [refd_null, if_false] at h1
  have h2 := countP_set_add (fun x => decide (refd pageSequence c t x))
    (L.set i JSVal.null) i (seqAt pageSequence c) hi0
  rw [hback, hnull0] at h2
  have hself : refd pageSequence c t (seqAt pageSequence c) := (refd_self _ _ _ hc).2 ht
  simp only [decide_eq_true_eq, refd_null, if_false, hself, if_true] at h2
  unfold refdCount at h1 ⊢
  omega

/-- One reference keeps domination: `F` is served by evicting a slot whose page is
referenced farthest in the future (or never, or an empty slot), `G` by overwriting any slot. -/
theorem dominates_step (pageSequence : List Int) (c : Nat) (hc : c < pageSequence.length)
    (F G F2 G2 : List JSVal) (fO fA fO2 fA2 : Nat)
    (hlen : G.length = F.length) (hnd : NoDuplicatePage F)
    (hdom : Dominates pageSequence c F G fO fA)
    (hF : (seqAt pageSequence c ∈ F ∧ F2 = F ∧ fO2 = fO) ∨
      (seqAt pageSequence c ∉ F ∧ fO2 = fO + 1 ∧ ∃ v, ∃ hv : v < F.length,
        F2 = F.set v (seqAt pageSequence c) ∧
        ∀ t, refd pageSequence (c + 1) t F[v] → ∀ x ∈ F, refd pageSequence (c + 1) t x))
    (hG : (seqAt pageSequence c ∈ G ∧ G2 = G ∧ fA2 = fA) ∨
      (seqAt pageSequence c ∉ G ∧ fA2 = fA + 1 ∧ ∃ i, ∃ _hi : i < G.length,
        G2 = G.set i (seqAt pageSequence c))) :
    Dominates pageSequence (c + 1) F2 G2 fO2 fA2 := by
  have hd0 : fO ≤ fA := by
    have := hdom 0
    rw [refdCount_empty _ _ _ _ (Nat.zero_le c), refdCount_empty _ _ _ _ (Nat.zero_le c)] at this
    omega
  -- when OPTIMAL faults while the other table hits, the other run is strictly behind
  have hd1 : seqAt pageSequence c ∉ F → seqAt pageSequence c ∈ G → fO + 1 ≤ fA := by
    intro hpF hpG
    have h := hdom (c + 1)
    have hF0 : refdCount pageSequence c (c + 1) F = 0 := by
      unfold refdCount
      rw [List.countP_eq_zero]
      intro a ha hrefd
      simp only [decide_eq_true_eq] at hrefd
      exact hpF (refd_one _ _ _ hrefd ▸ ha)
    have hG1 : 0 < refdCount pageSequence c (c + 1) G := by
      unfold refdCount
      rw [List.countP_pos_iff]
      exact ⟨_, hpG, by simpa using (refd_self pageSequence c (c + 1) hc).2 (by omega)⟩
    omega
  intro t
  by_cases ht : t ≤ c + 1
  · rw [refdCount_empty _ _ _ _ ht, refdCount_empty _ _ _ _ ht]
    rcases hF with ⟨_, _, e1⟩ | ⟨hpF, e1, _⟩ <;> rcases hG with ⟨hpG, _, e2⟩ | ⟨_, e2, _⟩
    · omega
    · omega
    · have := hd1 hpF hpG
      omega
    · omega
  · have hct : c < t := by omega
    have hXY := hdom t
    have hYk := refdCount_le_length pageSequence c t G
    rcases hF with ⟨hpF, eF, e1⟩ | ⟨hpF, e1, v, hv, eF, hfar⟩ <;>
      rcases hG with ⟨hpG, eG, e2⟩ | ⟨hpG, e2, i, hi, eG⟩
    · -- both hit
      have a1 := refdCount_hit_eq pageSequence c t F hc hct hpF hnd
      have a2 := refdCount_hit_le pageSequence c t G hc hct hpG
      rw [eF, eG, e1, e2]
      omega
    · -- OPTIMAL hits, the other faults
      have a1 := refdCount_hit_eq pageSequence c t F hc hct hpF hnd
      have a2 := refdCount_fault pageSequence c t G i hi hpG
      rw [eF, eG, e1, e2]
      split_ifs at a1 a2 <;> omega
    · -- OPTIMAL faults, the other hits
      have a1 := refdCount_fault pageSequence c t F v hv hpF
      have a2 := refdCount_hit_le pageSequence c t G hc hct hpG
      have hd := hd1 hpF hpG
      have hne : F[v] ≠ seqAt pageSequence c := fun h => hpF (h ▸ List.getElem_mem _)
      rw [eF, eG, e1, e2]
      by_cases hq : refd pageSequence c t F[v]
      · have hall := hfar t ((refd_shift _ _ _ _ hne).2 hq)
        have hX := refdCount_eq_length pageSequence (c + 1) t F hall
        rw [refdCount_shift _ _ _ _ hpF] at hX
        simp only [hq, if_true] at a1
        split_ifs at a1 a2 <;> omega
      · simp only [hq, if_false] at a1
        split_ifs at a1 a2 <;> omega
    · -- both fault
      have a1 := refdCount_fault pageSequence c t F v hv hpF
      have a2 := refdCount_fault pageSequence c t G i hi hpG
      have hne : F[v] ≠ seqAt pageSequence c := fun h => hpF (h ▸ List.getElem_mem _)
      rw [eF, eG, e1, e2]
      by_cases hq : refd pageSequence c t F[v]
      · have hall := hfar t ((refd_shift _ _ _ _ hne).2 hq)
        have hX := refdCount_eq_length pageSequence (c + 1) t F hall
        rw [refdCount_shift _ _ _ _ hpF] at hX
        simp only [hq, if_true] at a1
        by_cases hg : refd pageSequence c t G[i]
        · simp only [hg, if_true] at a2
          split_ifs at a1 a2 <;> omega
        · have hlt := refdCount_lt_length pageSequence c t G G[i] (List.getElem_mem _) hg
          simp only [hg, if_false] at a2
          split_ifs at a1 a2 <;> omega
      · simp only [hq, if_false] at a1
        split_ifs at a1 a2 <;> omega

theorem refd_iff_nextUseOf (pageSequence : List Int) (c t : Nat) (x : JSVal) :
    refd pageSequence (c + 1) t x ↔
      ∃ k : Nat, nextUseOf pageSequence x c = .fin (k : Int) ∧ k < t := by
  constructor
  · rintro ⟨i, h1, h2, h3, h4⟩
    rcases nextUseOf_spec pageSequence x c with ⟨_, g2⟩ | ⟨k, g1, _, _, _, g5⟩
    · exact absurd h4 (g2 i (by omega) h3)
    · refine ⟨k, g1, ?_⟩
      by_contra hkt
      exact g5 i (by omega) (by omega) h4
  · rintro ⟨k, h1, h2⟩
    rcases nextUseOf_spec pageSequence x c with ⟨g1, _⟩ | ⟨k2, g1, g2, g3, g4, _⟩
    · rw [g1] at h1
      simp at h1
    · rw [g1] at h1
      have hk : k2 = k := by
        have := JSNum.fin.inj h1
        omega
      subst hk
      exact ⟨k2, h2, by omega, g3, g4⟩

theorem nextUseOf_ne_negInf (pageSequence : List Int) (c : Nat) (x : JSVal) :
    nextUseOf pageSequence x c ≠ .negInf := by
  rcases nextUseOf_spec pageSequence x c with ⟨g1, _⟩ | ⟨k, g1, _⟩ <;> rw [g1] <;> simp

/-- The slot chosen under OPTIMAL holds a page whose next reference is not before that of
any other slot. -/
theorem selectVictim_optimal_farthest (s : Sim) (halg : s.algorithm = .optimal)
    (F : List JSVal) (v : Nat) (hv : v < F.length) (hsel : selectVictim s F = some v) :
    ∀ t, refd s.pageSequence (s.currentStep + 1) t F[v] →
      ∀ x ∈ F, refd s.pageSequence (s.currentStep + 1) t x := by
  have hne : F.map (fun frame => nextUseOf s.pageSequence frame s.currentStep) ≠ [] := by
    intro h
    rw [List.map_eq_nil_iff] at h
    rw [h] at hv
    simp at hv
  obtain ⟨w, h1, hw, h2, _⟩ := argmax_first _ hne
  simp only [selectVictim, halg] at hsel
  have hwv : w = v := by
    rw [h1] at hsel
    exact Option.some.inj hsel
  subst hwv
  intro t hrefd x hx
  obtain ⟨j, hj, rfl⟩ := List.getElem_of_mem hx
  obtain ⟨k, hk1, hk2⟩ := (refd_iff_nextUseOf _ _ _ _).1 hrefd
  have hle := h2 j (by simpa using hj)
  simp only [List.getElem_map] at hle
  rw [hk1] at hle
  rcases nextUseOf_spec s.pageSequence F[j] s.currentStep with ⟨g1, _⟩ | ⟨k2, g1, _⟩
  · rw [g1] at hle
    simp [JSNum.le] at hle
  · rw [g1] at hle
    simp only [JSNum.le, decide_eq_true_eq] at hle
    exact (refd_iff_nextUseOf _ _ _ _).2 ⟨k2, g1, by omega⟩

/-- The run under OPTIMAL dominates the run under any policy on the same frame count and
sequence, after every number of steps. -/
theorem optimal_dominates (sO sA : Sim) (halg : sO.algorithm = .optimal)
    (hframes : sA.pageFrames = sO.pageFrames) (hseq : sA.pageSequence = sO.pageSequence)
    (hpos : 1 ≤ sO.pageFrames) (k : Nat) (hk : k ≤ sO.pageSequence.length) :
    Dominates sO.pageSequence k
      (stepN k (resetSimulation sO)).frames (stepN k (resetSimulation sA)).frames
      (stepN k (resetSimulation sO)).pageFaults (stepN k (resetSimulation sA)).pageFaults := by
  induction k with
  | zero =>
    intro t
    show refdCount _ _ _ (List.replicate sA.pageFrames.toNat JSVal.null) + 0
      ≤ refdCount _ _ _ (List.replicate sO.pageFrames.toNat JSVal.null) + 0
    rw [hframes]
  | succ k ih =>
    have hdom := ih (by omega)
    obtain ⟨wO0, nO0⟩ := resetSimulation_invariant sO hpos
    obtain ⟨wA0, nA0⟩ := resetSimulation_invariant sA (by omega)
    obtain ⟨wO, nO⟩ := stepN_invariant k _ wO0 nO0
    obtain ⟨wA, _⟩ := stepN_invariant k _ wA0 nA0
    obtain ⟨cO1, cO2, cO3⟩ := stepN_config k (resetSimulation sO)
    obtain ⟨_, cA2, cA3⟩ := stepN_config k (resetSimulation sA)
    have eO : (stepN k (resetSimulation sO)).currentStep = k := by
      have := (stepN_counts k (resetSimulation sO) (by
        show 0 + k ≤ sO.pageSequence.length
        omega)).1
      rw [this]
      show 0 + k = k
      omega
    have eA : (stepN k (resetSimulation sA)).currentStep = k := by
      have := (stepN_counts k (resetSimulation sA) (by
        show 0 + k ≤ sA.pageSequence.length
        rw [hseq]
        omega)).1
      rw [this]
      show 0 + k = k
      omega
    have sO3 : (stepN k (resetSimulation sO)).pageSequence = sO.pageSequence := cO3
    have sA3 : (stepN k (resetSimulation sA)).pageSequence = sO.pageSequence := by
      rw [cA3]; exact hseq
    have sO2 : (stepN k (resetSimulation sO)).pageFrames = sO.pageFrames := cO2
    have sA2 : (stepN k (resetSimulation sA)).pageFrames = sO.pageFrames := by
      rw [cA2]; exact hframes
    have hltO : (stepN k (resetSimulation sO)).currentStep
        < (stepN k (resetSimulation sO)).pageSequence.length := by
      rw [eO, sO3]; omega
    have hltA : (stepN k (resetSimulation sA)).currentStep
        < (stepN k (resetSimulation sA)).pageSequence.length := by
      rw [eA, sA3]; omega
    have hlen : (stepN k (resetSimulation sA)).frames.length
        = (stepN k (resetSimulation sO)).frames.length := by
      have a1 := wA.1
      have a2 := wO.1
      omega
    rw [stepN_succ_last k (resetSimulation sO), stepN_succ_last k (resetSimulation sA)]
    have caseO := processNextPage_cases _ wO hltO
    have caseA := processNextPage_cases _ wA hltA
    rw [eO, sO3] at caseO
    rw [eA, sA3] at caseA
    apply dominates_step sO.pageSequence k (by omega) _ _ _ _ _ _ _ _ hlen nO hdom
    · rcases caseO with ⟨h1, h2, h3⟩ | ⟨h1, h2, v, hv, h3, h4, h5⟩
      · exact Or.inl ⟨h1, h2, h3⟩
      · refine Or.inr ⟨h1, h2, v, hv, h3, ?_⟩
        by_cases hnull : JSVal.null ∈ (stepN k (resetSimulation sO)).frames
        · intro t hrefd
          rw [h4 hnull] at hrefd
          exact absurd hrefd (refd_null _ _ _)
        · have hfar := selectVictim_optimal_farthest (stepN k (resetSimulation sO))
            (by rw [cO1]; exact halg) _ v hv (h5 hnull)
          rw [eO, sO3] at hfar
          exact hfar
    · rcases caseA with ⟨h1, h2, h3⟩ | ⟨h1, h2, i, hi, h3, _⟩
      · exact Or.inl ⟨h1, h2, h3⟩
      · exact Or.inr ⟨h1, h2, i, hi, h3⟩

theorem dominates_faults_le (pageSequence : List Int) (c : Nat) (F G : List JSVal)
    (fO fA : Nat) (h : Dominates pageSequence c F G fO fA) : fO ≤ fA := by
  have := h 0
  rw [refdCount_empty _ _ _ _ (Nat.zero_le c), refdCount_empty _ _ _ _ (Nat.zero_le c)] at this
  omega

/-- C4: for every reference sequence and every frame count >= 1, the number of faults of the
full run (reset, then one step per reference; the run ends exhausted) under OPTIMAL is at most
the number of faults of the full run under FIFO (victim index `currentStep % pageFrames`) and
at most that of the full run under LRU, on the same sequence and frame count. -/
theorem optimal_faults_le_fifo_lru (s : Sim) (hpos : 1 ≤ s.pageFrames) :
    (fullRun { s with algorithm := .optimal }).pageFaults
      ≤ (fullRun { s with algorithm := .fifo }).pageFaults ∧
    (fullRun { s with algorithm := .optimal }).pageFaults
      ≤ (fullRun { s with algorithm := .lru }).pageFaults ∧
    (fullRun { s with algorithm := .optimal }).currentStep = s.pageSequence.length ∧
    (fullRun { s with algorithm := .fifo }).currentStep = s.pageSequence.length ∧
    (fullRun { s with algorithm := .lru }).currentStep = s.pageSequence.length := by
  have key : ∀ a : Algorithm,
      (fullRun { s with algorithm := .optimal }).pageFaults
        ≤ (fullRun { s with algorithm := a }).pageFaults := fun a =>
    dominates_faults_le _ _ _ _ _ _
      (optimal_dominates { s with algorithm := .optimal } { s with algorithm := a }
        rfl rfl rfl hpos s.pageSequence.length (Nat.le_refl _))
  have hend : ∀ a : Algorithm,
      (fullRun { s with algorithm := a }).currentStep = s.pageSequence.length := by
    intro a
    have := (stepN_counts s.pageSequence.length (resetSimulation { s with algorithm := a })
      (by
        show 0 + s.pageSequence.length ≤ s.pageSequence.length
        omega)).1
    unfold fullRun
    rw [this]
    show 0 + s.pageSequence.length = _
    omega
  exact ⟨key .fifo, key .lru, hend .optimal, hend .fifo, hend .lru⟩

theorem optimal_faults_le_fifo_lru_witness :
    1 ≤ initialState.pageFrames ∧
    (fullRun { initialState with algorithm := .optimal }).pageFaults = 7 ∧
    (fullRun { initialState with algorithm := .fifo }).pageFaults = 10 ∧
    (fullRun { initialState with algorithm := .lru }).pageFaults = 10 ∧
    (fullRun { initialState with algorithm := .optimal }).pageFaults
      ≤ (fullRun { initialState with algorithm := .fifo }).pageFaults ∧
    (fullRun { initialState with algorithm := .optimal }).pageFaults
      ≤ (fullRun { initialState with algorithm := .lru }).pageFaults :=
  ⟨by decide, by decide, by decide, by decide,
    (optimal_faults_le_fifo_lru initialState (by decide)).1,
    (optimal_faults_le_fifo_lru initialState (by decide)).2.1⟩

end VMM
